import Mathlib

/-!
Verification of the magicsock path-selection core (wgengine/magicsock/magicsock.go).

This file shallowly embeds the per-peer path state machine of the repository:
the best-path comparator `betterAddr`, address selection (`addrForSendLocked`,
`endpoint.send`), path-state garbage collection (`shouldDeleteLocked`,
`deleteEndpointLocked`, `updateFromNode`), pong handling
(`handlePongConnLocked`), call-me-maybe handling (`handleCallMeMaybe`),
runtime candidate learning (`addCandidateEndpoint`), the peer-map predicate
`Conn.PeerHasDiscoKey`, and the DERP relay write queue (`Conn.sendAddr`).

Modelling conventions:
- Go `time.Time` / `mono.Time` values are nanosecond counts as `Nat`; the Go
  zero time is `0`, and `t.IsZero()` is `t = 0`.  `time.Duration` is also a
  `Nat` of nanoseconds (all durations compared in the embedded code are
  non-negative).  Wall-clock and monotonic "now" are passed as separate
  explicit parameters (`nowW`, `nowM`) where the Go code reads both clocks.
- Go maps are association lists (`List (k × v)`); insertion replaces the
  first binding in place, deletion removes all bindings of the key, mirroring
  the unique-key semantics of a Go map extensionally (by lookup).  Go's
  unspecified map iteration order is realised as the list order, one
  admissible schedule.
- Timers, goroutines, logging and the random transaction ids registered by
  `startPingLocked` are effects outside the state modelled here; functions
  that fire pings instead return the list of endpoint addresses pinged.
-/

namespace Magicsock

/-! ## Association-list maps (the embedding of Go maps) -/

variable {α : Type} {β : Type} [DecidableEq α]

/-- Lookup of a key in an association list (Go `m[k]`, first binding wins). -/
def mlookup : List (α × β) → α → Option β
  | [], _ => none
  | (k', v') :: rest, k => if k' = k then some v' else mlookup rest k

/-- Insertion (Go `m[k] = v`): replaces the first binding of `k` in place,
or appends a new binding when `k` is absent. -/
def minsert : List (α × β) → α → β → List (α × β)
  | [], k, v => [(k, v)]
  | (k', v') :: rest, k, v =>
    if k' = k then (k, v) :: rest else (k', v') :: minsert rest k v

/-- Deletion (Go `delete(m, k)`): removes every binding of `k`. -/
def merase : List (α × β) → α → List (α × β)
  | [], _ => []
  | (k', v') :: rest, k =>
    if k' = k then merase rest k else (k', v') :: merase rest k

/-- Map over the values of an association list, keys unchanged. -/
def mapVals (f : β → β) : List (α × β) → List (α × β)
  | [] => []
  | (k, v) :: rest => (k, f v) :: mapVals f rest

/-- Keys of an association list. -/
def mkeys (m : List (α × β)) : List α := m.map Prod.fst

/-- The keys of the list are pairwise distinct (every Go map satisfies it). -/
def KeysNodup (m : List (α × β)) : Prop := (mkeys m).Nodup

instance (m : List (α × β)) : Decidable (KeysNodup m) := by
  unfold KeysNodup; infer_instance

theorem mlookup_minsert (m : List (α × β)) (k : α) (v : β) (k' : α) :
    mlookup (minsert m k v) k' = if k = k' then some v else mlookup m k' := by
  induction m with
  | nil => simp [minsert, mlookup]
  | cons p rest ih =>
    obtain ⟨pk, pv⟩ := p
    by_cases hpk : pk = k
    · subst hpk
      by_cases hk' : pk = k'
      · subst hk'; simp [minsert, mlookup]
      · simp [minsert, mlookup, hk']
    · by_cases hk' : pk = k'
      · subst hk'
        have : ¬ k = pk := fun h => hpk h.symm
        simp [minsert, mlookup, hpk, this]
      · simp [minsert, mlookup, hpk, hk', ih]

theorem mlookup_merase (m : List (α × β)) (k : α) (k' : α) :
    mlookup (merase m k) k' = if k = k' then none else mlookup m k' := by
  induction m with
  | nil => simp [merase, mlookup]
  | cons p rest ih =>
    obtain ⟨pk, pv⟩ := p
    by_cases hpk : pk = k
    · subst hpk
      by_cases hk' : pk = k'
      · subst hk'; simp [merase, mlookup, ih]
      · simp [merase, mlookup, hk', ih]
    · by_cases hk' : pk = k'
      · subst hk'
        have : ¬ k = pk := fun h => hpk h.symm
        simp [merase, mlookup, hpk, this]
      · simp [merase, mlookup, hpk, hk', ih]

theorem mlookup_mapVals (f : β → β) (m : List (α × β)) (k : α) :
    mlookup (mapVals f m) k = (mlookup m k).map f := by
  induction m with
  | nil => simp [mapVals, mlookup]
  | cons p rest ih =>
    obtain ⟨pk, pv⟩ := p
    by_cases hpk : pk = k
    · subst hpk; simp [mapVals, mlookup]
    · simp [mapVals, mlookup, hpk, ih]

theorem mem_of_mlookup_eq_some {m : List (α × β)} {k : α} {v : β}
    (h : mlookup m k = some v) : (k, v) ∈ m := by
  induction m with
  | nil => simp [mlookup] at h
  | cons p rest ih =>
    obtain ⟨pk, pv⟩ := p
    by_cases hpk : pk = k
    · subst hpk
      simp [mlookup] at h
      simp [h]
    · simp [mlookup, hpk] at h
      exact List.mem_cons_of_mem _ (ih h)

theorem mlookup_eq_none_of_forall_not_mem {m : List (α × β)} {k : α}
    (h : ∀ v, (k, v) ∉ m) : mlookup m k = none := by
  induction m with
  | nil => simp [mlookup]
  | cons p rest ih =>
    obtain ⟨pk, pv⟩ := p
    by_cases hpk : pk = k
    · subst hpk
      exact absurd (List.mem_cons_self _ _) (h pv)
    · simp [mlookup, hpk]
      exact ih fun v hv => h v (List.mem_cons_of_mem _ hv)

theorem not_mem_of_mlookup_eq_none {m : List (α × β)} {k : α}
    (h : mlookup m k = none) : ∀ v, (k, v) ∉ m := by
  induction m with
  | nil => simp
  | cons p rest ih =>
    obtain ⟨pk, pv⟩ := p
    by_cases hpk : pk = k
    · subst hpk; simp [mlookup] at h
    · simp [mlookup, hpk] at h
      intro v hv
      rcases List.mem_cons.mp hv with h1 | h1
      · exact hpk (by injection h1 with h1a h1b; exact h1a.symm)
      · exact ih h v h1

theorem mem_minsert {m : List (α × β)} {k : α} {v : β} {p : α × β}
    (h : p ∈ minsert m k v) : p = (k, v) ∨ p ∈ m := by
  induction m with
  | nil => simp [minsert] at h; simp [h]
  | cons q rest ih =>
    obtain ⟨qk, qv⟩ := q
    by_cases hqk : qk = k
    · subst hqk
      simp [minsert] at h
      rcases h with h | h
      · exact Or.inl h
      · exact Or.inr (List.mem_cons_of_mem _ h)
    · simp [minsert, hqk] at h
      rcases h with h | h
      · exact Or.inr (by simp [h])
      · rcases ih h with h1 | h1
        · exact Or.inl h1
        · exact Or.inr (List.mem_cons_of_mem _ h1)

theorem mem_merase {m : List (α × β)} {k : α} {p : α × β}
    (h : p ∈ merase m k) : p ∈ m ∧ p.1 ≠ k := by
  induction m with
  | nil => simp [merase] at h
  | cons q rest ih =>
    obtain ⟨qk, qv⟩ := q
    by_cases hqk : qk = k
    · subst hqk
      simp [merase] at h
      obtain ⟨h1, h2⟩ := ih h
      exact ⟨List.mem_cons_of_mem _ h1, h2⟩
    · simp [merase, hqk] at h
      rcases h with h | h
      · refine ⟨by simp [h], ?_⟩
        rw [h]
        exact hqk
      · obtain ⟨h1, h2⟩ := ih h
        exact ⟨List.mem_cons_of_mem _ h1, h2⟩

theorem mem_mapVals {f : β → β} {m : List (α × β)} {p : α × β}
    (h : p ∈ mapVals f m) : ∃ v, (p.1, v) ∈ m ∧ p.2 = f v := by
  induction m with
  | nil => simp [mapVals] at h
  | cons q rest ih =>
    obtain ⟨qk, qv⟩ := q
    simp [mapVals] at h
    rcases h with h | h
    · exact ⟨qv, by simp [h], by simp [h]⟩
    · obtain ⟨v, hv1, hv2⟩ := ih h
      exact ⟨v, List.mem_cons_of_mem _ hv1, hv2⟩

theorem mlookup_eq_some_of_mem_nodup {m : List (α × β)} {k : α} {v : β}
    (hnd : KeysNodup m) (h : (k, v) ∈ m) : mlookup m k = some v := by
  induction m with
  | nil => simp at h
  | cons p rest ih =>
    obtain ⟨pk, pv⟩ := p
    simp only [KeysNodup, mkeys, List.map_cons, List.nodup_cons] at hnd
    have hnd' : KeysNodup rest := hnd.2
    rcases List.mem_cons.mp h with h1 | h1
    · rw [Prod.mk.injEq] at h1
      obtain ⟨h1a, h1b⟩ := h1
      subst h1a; subst h1b
      simp [mlookup]
    · have hne : pk ≠ k := by
        intro he
        subst he
        exact hnd.1 (List.mem_map.mpr ⟨(pk, v), h1, rfl⟩)
      simp [mlookup, hne]
      exact ih hnd' h1

/-! ## Addresses and time (netaddr.IP, netaddr.IPPort, mono.Time, time.Duration) -/

/-- An IP address: the zero value (`netaddr.IP{}`), an IPv4 address (32 bits),
or an IPv6 address (128 bits), the bits as a `Nat`. -/
inductive IP where
  | zero
  | v4 (bits : Nat)
  | v6 (bits : Nat)
deriving DecidableEq, Repr

/-- Go `ip.Is4()`. -/
def IP.is4 : IP → Bool
  | .v4 _ => true
  | _ => false

/-- Go `ip.Is6()`. -/
def IP.is6 : IP → Bool
  | .v6 _ => true
  | _ => false

/-- Go `ip.IsLinkLocalUnicast()`: fe80::/10 for IPv6, 169.254.0.0/16 for IPv4. -/
def IP.isLinkLocalUnicast : IP → Bool
  | .v6 bits => decide (bits / 2 ^ 118 = 0x3fa)
  | .v4 bits => decide (bits / 2 ^ 16 = 169 * 256 + 254)
  | .zero => false

/-- Go `netaddr.IPPort`: an IP address and a UDP port. -/
structure IPPort where
  ip : IP
  port : Nat
deriving DecidableEq, Repr

/-- Go `ipp.IsZero()`: equality with the zero `netaddr.IPPort{}`. -/
def IPPort.isZero (p : IPPort) : Bool := decide (p.ip = IP.zero ∧ p.port = 0)

/-- The DERP magic IP `127.3.3.40` (`derpMagicIPAddr`); a destination with this
IP is a relay pseudo-address whose port is the DERP region id. -/
def derpMagicIPAddr : IP := IP.v4 2130903848

/-- Monotonic or wall-clock instants: nanoseconds as `Nat`; `0` is Go's zero time. -/
abbrev Time := Nat

/-- Go `time.Duration` in nanoseconds (only non-negative durations arise here). -/
abbrev Duration := Nat

/-! ## Constants of the discovery state machine (magicsock.go) -/

/-- Constant `sessionActiveTimeout = 2 * time.Minute`, in nanoseconds. -/
def sessionActiveTimeout : Duration := 120 * 1000000000

/-- Constant `upgradeInterval = 1 * time.Minute`. -/
def upgradeInterval : Duration := 60 * 1000000000

/-- Constant `heartbeatInterval = 2 * time.Second`. -/
def heartbeatInterval : Duration := 2 * 1000000000

/-- Constant `discoPingInterval = 5 * time.Second`. -/
def discoPingInterval : Duration := 5 * 1000000000

/-- Constant `pingTimeoutDuration = 5 * time.Second`. -/
def pingTimeoutDuration : Duration := 5 * 1000000000

/-- Constant `trustUDPAddrDuration = 5 * time.Second`. -/
def trustUDPAddrDuration : Duration := 5 * 1000000000

/-- Constant `goodEnoughLatency = 5 * time.Millisecond`. -/
def goodEnoughLatency : Duration := 5 * 1000000

/-- Constant `pongHistoryCount = 64`: ring-buffer size of `recentPongs`. -/
def pongHistoryCount : Nat := 64

/-- Constant `indexSentinelDeleted = -1`: `endpointState.index` value while the
endpoint is not in the current network-map advertised list. -/
def indexSentinelDeleted : Int := -1

/-- Constant `bufferedDerpWritesBeforeDrop = 32`: DERP writer channel capacity. -/
def bufferedDerpWritesBeforeDrop : Nat := 32

/-! ## Per-peer path state (endpointState, sentPing, endpoint) -/

/-- One entry of `endpointState.recentPongs` (struct `pongReply`); `fromAddr`
embeds the Go field `from`, `pongSrc` the address the peer reported seeing. -/
structure pongReply where
  latency : Duration
  pongAt : Time
  fromAddr : IPPort
  pongSrc : IPPort
deriving DecidableEq, Repr

/-- Struct `endpointState`: state for one candidate UDP address of one peer.
The timeout `*time.Timer` handles of the Go struct are effects outside the
model. -/
structure endpointState where
  lastPing : Time := 0
  lastGotPing : Time := 0
  callMeMaybeTime : Time := 0
  recentPongs : List pongReply := []
  recentPong : Nat := 0
  index : Int := 0
deriving DecidableEq, Repr

/-- Struct `sentPing` (sans the timeout timer handle); `toAddr` embeds the Go
field `to`, `sentAt` the Go field `at`. -/
structure sentPing where
  toAddr : IPPort
  sentAt : Time
deriving DecidableEq, Repr

/-- An `addrLatency`: an IPPort with an associated latency. -/
structure addrLatency where
  ipp : IPPort
  latency : Duration
deriving DecidableEq, Repr

/-- Go `addrLatency.IsZero()` promotes the embedded `IPPort.IsZero`;
the latency field does not participate. -/
def addrLatency.isZero (a : addrLatency) : Bool := a.ipp.isZero

/-- The zero `addrLatency{}` assigned when the best path is cleared. -/
def addrLatency.zero : addrLatency := ⟨⟨IP.zero, 0⟩, 0⟩

/-- Transaction ids (`stun.TxID`, 12 random bytes) as `Nat`. -/
abbrev TxID := Nat

/-- Struct `endpoint`: the mutable per-peer record (fields guarded by
`endpoint.mu`, plus the immutable `discoKey`).  Keys are `Nat`s, `0` being the
zero key.  `pendingCLIPings` is kept as a count (the callbacks are effects). -/
structure Endpoint where
  discoKey : Nat := 0
  derpAddr : IPPort := ⟨IP.zero, 0⟩
  lastSend : Time := 0
  lastFullPing : Time := 0
  bestAddr : addrLatency := addrLatency.zero
  bestAddrAt : Time := 0
  trustBestAddrUntil : Time := 0
  sentPing : List (TxID × sentPing) := []
  endpointState : List (IPPort × endpointState) := []
  isCallMeMaybeEP : List (IPPort × Bool) := []
  pendingCLIPings : Nat := 0
deriving DecidableEq, Repr

/-- Go `endpoint.canP2P()`: the peer understands disco iff its disco key is
non-zero (`!de.discoKey.IsZero()`). -/
def canP2P (de : Endpoint) : Bool := decide (de.discoKey ≠ 0)

/-! ## betterAddr: the best-path comparator -/

/-- Function `betterAddr(a, b)`: whether `a` is a better address to use than
`b`.  Transliterated clause for clause, including the integer division
`a.latency/10*9` (Go `time.Duration` arithmetic) and the recursive call in the
IPv4-versus-IPv6 arm. -/
def betterAddr (a b : addrLatency) : Bool :=
  if a.ipp = b.ipp then false
  else if b.isZero then true
  else if a.isZero then false
  else if a.ipp.ip.is6 && b.ipp.ip.is4 then
    if a.latency / 10 * 9 < b.latency then true
    else decide (a.latency < b.latency)
  else if a.ipp.ip.is4 && b.ipp.ip.is6 then
    if betterAddr b a then false
    else decide (a.latency < b.latency)
  else decide (a.latency < b.latency)
termination_by (if a.ipp.ip.is4 && b.ipp.ip.is6 then 1 else 0 : Nat)
decreasing_by
  rename_i h1 h2 h3 h4 h5
  simp only [Bool.and_eq_true] at h5
  have hb6 : b.ipp.ip.is6 = true := h5.2
  have hb4 : b.ipp.ip.is4 = false := by
    cases hb : b.ipp.ip <;> simp [IP.is4, IP.is6, hb] at hb6 ⊢
  simp [hb4, h5.1, h5.2]

/-! ## Address selection and path-state maintenance -/

/-- Method `endpoint.addrForSendLocked(now)`: the UDP and DERP destinations of
the next packet.  The DERP fallback is attached exactly when the best address
is zero or the trust window has expired (`now.After(de.trustBestAddrUntil)`). -/
def addrForSendLocked (de : Endpoint) (now : Time) : IPPort × IPPort :=
  let udpAddr := de.bestAddr.ipp
  if udpAddr.isZero || decide (de.trustBestAddrUntil < now) then (udpAddr, de.derpAddr)
  else (udpAddr, ⟨IP.zero, 0⟩)

/-- Method `endpointState.shouldDeleteLocked()`; `nowW` stands for the wall
clock read by `time.Since`. -/
def shouldDeleteLocked (nowW : Time) (st : endpointState) : Bool :=
  if st.callMeMaybeTime ≠ 0 then false
  else if st.lastGotPing = 0 then decide (st.index = indexSentinelDeleted)
  else decide (sessionActiveTimeout < nowW - st.lastGotPing)

/-- Method `endpoint.deleteEndpointLocked(ep)`: drop the path state of `ep`
and clear `bestAddr` when it pointed at `ep`. -/
def deleteEndpointLocked (de : Endpoint) (ep : IPPort) : Endpoint :=
  let de' := { de with endpointState := merase de.endpointState ep }
  if de'.bestAddr.ipp = ep then { de' with bestAddr := addrLatency.zero } else de'

/-- Method `endpoint.startPingLocked(ep, now, purpose)` for the non-CLI
purposes used by the flows modelled here: requires a live path state for `ep`
(early return otherwise) and stamps `st.lastPing = now`.  The registration of
a fresh random txid in `sentPing`, the timeout timer and the goroutine that
seals and sends the frame are effects outside this state; the returned flag
records that a ping to `ep` was dispatched. -/
def startPingLocked (de : Endpoint) (ep : IPPort) (now : Time) : Endpoint × Bool :=
  match mlookup de.endpointState ep with
  | none => (de, false)
  | some st =>
    ({ de with endpointState := minsert de.endpointState ep { st with lastPing := now } }, true)

/-- The loop body of `endpoint.sendPingsLocked`: walk the path states; delete
the ones `shouldDeleteLocked` condemns, skip the ones pinged less than
`discoPingInterval` ago, ping the rest.  Returns the updated record and the
addresses pinged, in iteration order. -/
def sendPingsLoop (nowM nowW : Time) : Endpoint → List (IPPort × endpointState) → Endpoint × List IPPort
  | de, [] => (de, [])
  | de, (ep, st) :: rest =>
    if shouldDeleteLocked nowW st then
      sendPingsLoop nowM nowW (deleteEndpointLocked de ep) rest
    else if st.lastPing ≠ 0 ∧ nowM - st.lastPing < discoPingInterval then
      sendPingsLoop nowM nowW de rest
    else
      let r := startPingLocked de ep nowM
      let r2 := sendPingsLoop nowM nowW r.1 rest
      (r2.1, if r.2 then ep :: r2.2 else r2.2)

/-- Method `endpoint.sendPingsLocked(now, sendCallMeMaybe)`: the full probe.
Records `lastFullPing`, runs the loop over the candidate map, and (third
component) reports whether a call-me-maybe is enqueued via DERP: at least one
ping went out, the caller asked for it, and the peer has a DERP fallback. -/
def sendPingsLocked (de : Endpoint) (nowM nowW : Time) (sendCallMeMaybe : Bool) :
    Endpoint × List IPPort × Bool :=
  let de' := { de with lastFullPing := nowM }
  let r := sendPingsLoop nowM nowW de' de'.endpointState
  (r.1, r.2, !r.2.isEmpty && sendCallMeMaybe && !r.1.derpAddr.isZero)

/-- Method `endpoint.send(b)`: destinations are chosen by `addrForSendLocked`
before any probing; a full probe starts iff the peer can disco and (no best
address or the trust window expired); `noteActiveLocked` stamps `lastSend`.
Returns (updated record, list of addresses the payload is written to, whether
a full probe was initiated). -/
def Endpoint.send (de : Endpoint) (nowM nowW : Time) : Endpoint × List IPPort × Bool :=
  let a := addrForSendLocked de nowM
  let doProbe := canP2P de && (a.1.isZero || decide (de.trustBestAddrUntil < nowM))
  let de' := if doProbe then (sendPingsLocked de nowM nowW true).1 else de
  let de'' := { de' with lastSend := nowM }
  (de'', (if a.1.isZero then [] else [a.1]) ++ (if a.2.isZero then [] else [a.2]), doProbe)

/-! ## Network-map update (updateFromNode) and candidate learning -/

/-- A network-map node as consumed by `endpoint.updateFromNode`: the DERP
fallback (zero when `n.DERP` is empty or unparsable) and the advertised
endpoint list, where `none` stands for an entry `netaddr.ParseIPPort` rejects
(it keeps its position `i` but is skipped). -/
structure Node where
  derp : IPPort := ⟨IP.zero, 0⟩
  endpoints : List (Option IPPort) := []

/-- The second loop of `updateFromNode`: walk the advertised list with its
positions; skip unparsable entries and positions beyond `math.MaxInt16`;
update the index of known addresses, create fresh states for new ones. -/
def applyEndpointsLoop : Endpoint → List (Nat × Option IPPort) → Endpoint
  | de, [] => de
  | de, (_, none) :: rest => applyEndpointsLoop de rest
  | de, (i, some ipp) :: rest =>
    if 32767 < i then applyEndpointsLoop de rest
    else
      match mlookup de.endpointState ipp with
      | some st =>
        applyEndpointsLoop
          { de with endpointState := minsert de.endpointState ipp { st with index := (i : Int) } } rest
      | none =>
        applyEndpointsLoop
          { de with endpointState := minsert de.endpointState ipp { index := (i : Int) } } rest

/-- The garbage-collection pass shared by `updateFromNode`, `sendPingsLocked`
and `addCandidateEndpoint`: delete every path state whose `shouldDeleteLocked`
holds, iterating over the given snapshot. -/
def gcLoop (nowW : Time) : Endpoint → List (IPPort × endpointState) → Endpoint
  | de, [] => de
  | de, (ep, st) :: rest =>
    gcLoop nowW (if shouldDeleteLocked nowW st then deleteEndpointLocked de ep else de) rest

/-- Pre-GC phase of `endpoint.updateFromNode(n)`: set the DERP fallback, mark
every existing path state `indexSentinelDeleted`, then walk the new advertised
list. -/
def updateFromNodeApply (de : Endpoint) (n : Node) : Endpoint :=
  let de' := { de with derpAddr := n.derp }
  let de'' := { de' with
    endpointState := mapVals (fun st => { st with index := indexSentinelDeleted }) de'.endpointState }
  applyEndpointsLoop de'' n.endpoints.enum

/-- Method `endpoint.updateFromNode(n)`: apply the new advertised list, then
garbage-collect. -/
def updateFromNode (de : Endpoint) (n : Node) (nowW : Time) : Endpoint :=
  let de2 := updateFromNodeApply de n
  gcLoop nowW de2 de2.endpointState

/-- Method `endpoint.addCandidateEndpoint(ep)` (called on a validated inbound
disco ping from `ep`): refresh `lastGotPing` of a runtime-learned state, leave
network-map states alone, create a fresh state otherwise; if the candidate map
then exceeds 100 entries, delete everything `shouldDeleteLocked` condemns. -/
def addCandidateEndpoint (de : Endpoint) (ep : IPPort) (nowW : Time) : Endpoint :=
  match mlookup de.endpointState ep with
  | some st =>
    if st.lastGotPing = 0 then de
    else { de with endpointState := minsert de.endpointState ep { st with lastGotPing := nowW } }
  | none =>
    let de' := { de with endpointState := minsert de.endpointState ep { lastGotPing := nowW } }
    if 100 < de'.endpointState.length then gcLoop nowW de' de'.endpointState else de'

/-! ## Pong handling -/

/-- Method `endpointState.addPongReplyLocked(r)`: append to the pong ring
while it is below `pongHistoryCount`, then overwrite cyclically. -/
def addPongReplyLocked (st : endpointState) (r : pongReply) : endpointState :=
  if st.recentPongs.length < pongHistoryCount then
    { st with recentPong := st.recentPongs.length, recentPongs := st.recentPongs ++ [r] }
  else
    let i := st.recentPong + 1
    let i' := if i = pongHistoryCount then 0 else i
    { st with recentPongs := st.recentPongs.set i' r, recentPong := i' }

/-- A `disco.Pong` message: the echoed transaction id and the source address
the responder observed. -/
structure Pong where
  txID : TxID
  src : IPPort
deriving DecidableEq, Repr

/-- The final block of `handlePongConnLocked` for a non-DERP pong: promote
`thisPong` to `bestAddr` when `betterAddr` prefers it; when the (possibly just
promoted) best address is `thisPong`'s, refresh its latency, stamp
`bestAddrAt` and extend the trust window by `trustUDPAddrDuration`. -/
def handlePongPromote (de3 : Endpoint) (thisPong : addrLatency) (now : Time) : Endpoint :=
  let de4 := if betterAddr thisPong de3.bestAddr then { de3 with bestAddr := thisPong } else de3
  if de4.bestAddr.ipp = thisPong.ipp then
    { de4 with
      bestAddr := ⟨de4.bestAddr.ipp, thisPong.latency⟩
      bestAddrAt := now
      trustBestAddrUntil := now + trustUDPAddrDuration }
  else de4

/-- Method `endpoint.handlePongConnLocked(m, src)`: ignore pongs whose txid
matches no outstanding ping; otherwise remove the entry, and for non-DERP pongs
append to the pong ring of `sp.to` (early return when that path state is
gone), resolve CLI pings, and promote/refresh the best address via
`betterAddr`.  The Conn-level `setAddrToDiscoLocked` index write is outside
the per-peer record modelled here. -/
def handlePongConnLocked (de : Endpoint) (m : Pong) (src : IPPort) (now : Time) : Endpoint :=
  let isDerp := src.ip = derpMagicIPAddr
  match mlookup de.sentPing m.txID with
  | none => de
  | some sp =>
    let de1 := { de with sentPing := merase de.sentPing m.txID }
    let latency := now - sp.sentAt
    if isDerp then { de1 with pendingCLIPings := 0 }
    else
      match mlookup de1.endpointState sp.toAddr with
      | none => de1
      | some st =>
        let de2 := { de1 with
          endpointState :=
            minsert de1.endpointState sp.toAddr (addPongReplyLocked st ⟨latency, now, src, m.src⟩) }
        let de3 := { de2 with pendingCLIPings := 0 }
        handlePongPromote de3 ⟨sp.toAddr, latency⟩ now

/-! ## Call-me-maybe handling -/

/-- The second loop of `handleCallMeMaybe`: for each advertised address, skip
IPv6 link-local unicast addresses; mark the rest in `isCallMeMaybeEP` and
ensure a path state stamped `callMeMaybeTime = now`. -/
def cmmLoop (nowW : Time) : Endpoint → List IPPort → Endpoint
  | de, [] => de
  | de, ep :: rest =>
    if ep.ip.is6 && ep.ip.isLinkLocalUnicast then cmmLoop nowW de rest
    else
      let de' := { de with isCallMeMaybeEP := minsert de.isCallMeMaybeEP ep true }
      let de'' :=
        match mlookup de'.endpointState ep with
        | some es =>
          { de' with endpointState := minsert de'.endpointState ep { es with callMeMaybeTime := nowW } }
        | none =>
          { de' with endpointState := minsert de'.endpointState ep { callMeMaybeTime := nowW } }
      cmmLoop nowW de'' rest

/-- The deletion loop of `handleCallMeMaybe`: every endpoint still marked
`false` (present earlier, absent from this message) is removed from
`isCallMeMaybeEP` and its path state deleted via `deleteEndpointLocked`. -/
def cmmDeleteLoop : Endpoint → List (IPPort × Bool) → Endpoint
  | de, [] => de
  | de, (ep, want) :: rest =>
    if want then cmmDeleteLoop de rest
    else
      let de' := { de with isCallMeMaybeEP := merase de.isCallMeMaybeEP ep }
      cmmDeleteLoop (deleteEndpointLocked de' ep) rest

/-- Method `endpoint.handleCallMeMaybe(m)`: mark all previous call-me-maybe
endpoints for deletion, absorb the advertised list, delete the stale ones,
zero every `lastPing`, and run a full probe without echoing a call-me-maybe
(`sendPingsLocked(mono.Now(), false)`).  Returns the updated record and the
addresses pinged. -/
def handleCallMeMaybe (de : Endpoint) (myNumber : List IPPort) (nowW nowM : Time) :
    Endpoint × List IPPort :=
  let d1 := { de with isCallMeMaybeEP := mapVals (fun _ => false) de.isCallMeMaybeEP }
  let d2 := cmmLoop nowW d1 myNumber
  let d3 := cmmDeleteLoop d2 d2.isCallMeMaybeEP
  let d4 := { d3 with endpointState := mapVals (fun st => { st with lastPing := 0 }) d3.endpointState }
  let r := sendPingsLocked d4 nowM nowW false
  (r.1, r.2.1)

/-! ## Conn-level peer map and PeerHasDiscoKey -/

/-- Node keys (`tailcfg.NodeKey`, 32 bytes) as `Nat`; `0` is the zero key. -/
abbrev NodeKey := Nat

/-- Struct `peerInfo` restricted to the field `PeerHasDiscoKey` reads: its
`*endpoint`, `none` embedding a nil pointer. -/
structure peerInfo where
  ep : Option Endpoint := none

/-- Method `peerMap.endpointForNodeKey(nk)` on the `byNodeKey` index: zero
keys and nil `info.ep` yield nothing. -/
def endpointForNodeKey (byNodeKey : List (NodeKey × peerInfo)) (nk : NodeKey) : Option Endpoint :=
  if nk = 0 then none
  else
    match mlookup byNodeKey nk with
    | some info => info.ep
    | none => none

/-- Method `Conn.PeerHasDiscoKey(k)` as written in the source: for a known
peer it returns `ep.discoKey.IsZero()`; for an unknown key, `false`. -/
def PeerHasDiscoKey (byNodeKey : List (NodeKey × peerInfo)) (k : NodeKey) : Bool :=
  match endpointForNodeKey byNodeKey k with
  | some ep => decide (ep.discoKey = 0)
  | none => false

/-! ## The DERP relay write queue (Conn.sendAddr, DERP branch) -/

/-- Result of `Conn.sendAddr` on a relay pseudo-address: `(sent, err)` pairs
collapsed into one tag.  `notSent` is `(false, nil)` (no channel available),
`ok` is `(true, nil)`, the two errors mirror `errConnClosed` and
`errDropDerpPacket` (the `RelayQueueFull` condition). -/
inductive SendOutcome where
  | ok
  | notSent
  | errConnClosed
  | errDropDerpPacket
deriving DecidableEq, Repr

/-- The state `Conn.sendAddr` interacts with for one relay client: whether
`c.donec` is closed, whether `derpWriteChanOfAddr` yields a channel (a client
is open and usable), and the channel's buffered contents (capacity
`bufferedDerpWritesBeforeDrop`) while its writer does not consume. -/
structure DerpWriteState where
  donecClosed : Bool := false
  chOpen : Bool := true
  queue : List (List Nat) := []
deriving DecidableEq, Repr

/-- The DERP branch of `Conn.sendAddr(addr, pubKey, b)` with the writer not
consuming: nil channel yields `(false, nil)`; a closed `donec` yields
`errConnClosed`; a non-full buffered channel accepts the copied packet; the
`default` arm of the `select` drops the packet with `errDropDerpPacket`. -/
def sendAddrDerp (st : DerpWriteState) (b : List Nat) : SendOutcome × DerpWriteState :=
  if !st.chOpen then (.notSent, st)
  else if st.donecClosed then (.errConnClosed, st)
  else if st.queue.length < bufferedDerpWritesBeforeDrop then
    (.ok, { st with queue := st.queue ++ [b] })
  else (.errDropDerpPacket, st)

/-- Iterated `Conn.sendAddr` on the same relay destination: the outcomes of
consecutive sends and the final channel contents. -/
def derpSendSeq (st : DerpWriteState) : List (List Nat) → List SendOutcome × DerpWriteState
  | [] => ([], st)
  | b :: rest =>
    let r := sendAddrDerp st b
    let r2 := derpSendSeq r.2 rest
    (r.1 :: r2.1, r2.2)

/-! ## A closed form for betterAddr

`betterAddrClosed` restates the comparator without the recursive call, the way
the (amended) specification sentence describes it; `betterAddr_eq_closed`
proves it coincides with the transliterated `betterAddr` and doubles as the
computable interface to the well-founded definition. -/

/-- The comparator in closed form: on mixed families the IPv6 side's latency
is handicapped by the integer computation `lat/10*9` of the source; all other
clauses are the straightforward ones. -/
def betterAddrClosed (a b : addrLatency) : Bool :=
  if a.ipp = b.ipp then false
  else if b.isZero then true
  else if a.isZero then false
  else if a.ipp.ip.is6 && b.ipp.ip.is4 then decide (a.latency / 10 * 9 < b.latency)
  else if a.ipp.ip.is4 && b.ipp.ip.is6 then
    decide (a.latency ≤ b.latency / 10 * 9 ∧ a.latency < b.latency)
  else decide (a.latency < b.latency)

theorem lat_div_mul_le (n : Nat) : n / 10 * 9 ≤ n :=
  le_trans (Nat.mul_le_mul_left (n / 10) (by norm_num)) (Nat.div_mul_le_self n 10)

theorem betterAddr_eq_closed (a b : addrLatency) : betterAddr a b = betterAddrClosed a b := by
  rw [betterAddr.eq_def]
  unfold betterAddrClosed
  by_cases h1 : a.ipp = b.ipp
  · simp [h1]
  · by_cases h2 : b.isZero
    · simp [h1, h2]
    · by_cases h3 : a.isZero
      · simp [h1, h2, h3]
      · by_cases h4 : (a.ipp.ip.is6 && b.ipp.ip.is4) = true
        · simp only [h1, h2, h3, h4, if_false, if_true, Bool.false_eq_true]
          by_cases h5 : a.latency / 10 * 9 < b.latency
          · simp [h5]
          · have hnb : ¬ a.latency < b.latency := fun hab =>
              h5 (lt_of_le_of_lt (lat_div_mul_le a.latency) hab)
            simp [h5, hnb]
        · by_cases h5 : (a.ipp.ip.is4 && b.ipp.ip.is6) = true
          · have hrec : betterAddr b a =
                (if b.latency / 10 * 9 < a.latency then true
                 else decide (b.latency < a.latency)) := by
              rw [betterAddr.eq_def]
              have h1' : ¬ b.ipp = a.ipp := fun h => h1 h.symm
              have h6 : (b.ipp.ip.is6 && a.ipp.ip.is4) = true := by
                simp only [Bool.and_eq_true] at h5 ⊢
                exact ⟨h5.2, h5.1⟩
              simp [h1', h2, h3, h6]
            simp only [h1, h2, h3, h4, h5, if_false, if_true, Bool.false_eq_true, hrec]
            by_cases h7 : b.latency / 10 * 9 < a.latency
            · have hno : ¬ (a.latency ≤ b.latency / 10 * 9 ∧ a.latency < b.latency) :=
                fun hc => absurd h7 (Nat.not_lt.mpr hc.1)
              simp [h7, hno]
            · by_cases h8 : b.latency < a.latency
              · have hno : ¬ (a.latency ≤ b.latency / 10 * 9 ∧ a.latency < b.latency) :=
                  fun hc => absurd hc.2 (Nat.not_lt.mpr (Nat.le_of_lt h8))
                simp [h7, h8, hno]
              · have heq : (a.latency ≤ b.latency / 10 * 9 ∧ a.latency < b.latency) ↔
                    a.latency < b.latency :=
                  ⟨fun hc => hc.2, fun hab => ⟨Nat.not_lt.mp h7, hab⟩⟩
                simp [h7, h8, heq]
          · simp [h1, h2, h3, h4, h5]

/-! ## Claims -/

/-- C1 counterexample.  The claim states the mixed-family clause as exact real
arithmetic: for IPv6 `A` against IPv4 `B`, "A is better iff `lat_a × 0.9 <
lat_b`".  The source computes `a.latency/10*9` in integer (truncating)
`time.Duration` arithmetic instead.  At `lat_a = 19` ns, `lat_b = 10` ns the
code promotes (`19/10*9 = 9 < 10`) although `19 × 0.9 = 17.1 ≥ 10`, refuting
the claimed equivalence. -/
theorem claim_C1_counterexample :
    betterAddr ⟨⟨IP.v6 1, 1⟩, 19⟩ ⟨⟨IP.v4 1, 1⟩, 10⟩ = true ∧
    ¬ ((19 : ℚ) * (9 / 10) < 10) := by
  constructor
  · rw [betterAddr_eq_closed]; decide
  · norm_num

/-- C1 amended.  The comparator equals its closed form: equal addresses are
never better; a non-empty address beats an empty one; for IPv6 `A` vs IPv4
`B`, `A` is better iff `⌊lat_a/10⌋·9 < lat_b` (integer nanosecond arithmetic,
which is `lat_a × 0.9` whenever `lat_a` is a multiple of 10 ns); for IPv4 `A`
vs IPv6 `B`, `A` is better iff `lat_a ≤ ⌊lat_b/10⌋·9` and `lat_a < lat_b`;
otherwise lower latency wins.  In particular an IPv6 pong of 11.2 ms does not
displace an IPv4 best path of 10 ms (`11.2e6/10*9 = 10.08e6 ≥ 10e6`). -/
theorem claim_C1_amended :
    (∀ a b : addrLatency, betterAddr a b = betterAddrClosed a b) ∧
    betterAddr ⟨⟨IP.v6 0x20010db8000000000000000000000005, 41641⟩, 11200000⟩
      ⟨⟨IP.v4 3405803781, 41641⟩, 10000000⟩ = false := by
  refine ⟨betterAddr_eq_closed, ?_⟩
  rw [betterAddr_eq_closed]; decide

theorem zero_ipport_isZero : (⟨IP.zero, 0⟩ : IPPort).isZero = true := by decide

/-- C2.  Address selection for an outbound tunnel send, for a peer that can
disco and has a relay fallback: inside the trust window the packet goes to
the best-path UDP address only (and no probe starts); with no best path it
goes to the relay fallback only; with a best path whose trust window has
expired it goes to both, and a full probe is initiated. -/
theorem claim_C2 (de : Endpoint) (nowM nowW : Time)
    (hp2p : canP2P de = true) (hderp : de.derpAddr.isZero = false) :
    (de.bestAddr.ipp.isZero = false → nowM ≤ de.trustBestAddrUntil →
      (Endpoint.send de nowM nowW).2.1 = [de.bestAddr.ipp] ∧
      (Endpoint.send de nowM nowW).2.2 = false) ∧
    (de.bestAddr.ipp.isZero = true →
      (Endpoint.send de nowM nowW).2.1 = [de.derpAddr]) ∧
    (de.bestAddr.ipp.isZero = false → de.trustBestAddrUntil < nowM →
      (Endpoint.send de nowM nowW).2.1 = [de.bestAddr.ipp, de.derpAddr] ∧
      (Endpoint.send de nowM nowW).2.2 = true) := by
  refine ⟨?_, ?_, ?_⟩
  · intro hbz htrust
    have hnot : ¬ (de.trustBestAddrUntil < nowM) := Nat.not_lt.mpr htrust
    have ha : addrForSendLocked de nowM = (de.bestAddr.ipp, ⟨IP.zero, 0⟩) := by
      unfold addrForSendLocked
      simp [hbz, hnot]
    constructor
    · simp [Endpoint.send, ha, hbz, zero_ipport_isZero]
    · simp [Endpoint.send, ha, hbz, hnot]
  · intro hbz
    have ha : addrForSendLocked de nowM = (de.bestAddr.ipp, de.derpAddr) := by
      unfold addrForSendLocked
      simp [hbz]
    simp [Endpoint.send, ha, hbz, hderp]
  · intro hbz hexp
    have ha : addrForSendLocked de nowM = (de.bestAddr.ipp, de.derpAddr) := by
      unfold addrForSendLocked
      simp [hbz, hexp]
    constructor
    · simp [Endpoint.send, ha, hbz, hderp]
    · simp [Endpoint.send, ha, hbz, hexp, hp2p]

def deC2w : Endpoint :=
  { discoKey := 7
    derpAddr := ⟨derpMagicIPAddr, 1⟩
    bestAddr := ⟨⟨IP.v4 3405803781, 41641⟩, 20000000⟩
    trustBestAddrUntil := 100 }

/-- C2 witness: with the trust window expired the concrete peer record sends
to both the best path and the relay, probing. -/
theorem claim_C2_witness :
    (Endpoint.send deC2w 101 101).2.1 = [deC2w.bestAddr.ipp, deC2w.derpAddr] ∧
    (Endpoint.send deC2w 101 101).2.2 = true :=
  (claim_C2 deC2w 101 101 (by decide) (by decide)).2.2 (by decide) (by decide)

def epC3 : Endpoint := { discoKey := 5 }

/-- C3.  The claim (following the function's own doc comment, "reports
whether peer k supports discovery keys", and `canP2P`) wants `true` for a
known peer with a non-zero disco key.  The source returns
`ep.discoKey.IsZero()`: for the concrete map sending node key 1 to a peer
with disco key 5 it returns `false` although that peer can disco, and it
returns `true` exactly for a peer with a zero disco key. -/
theorem claim_C3_codebug :
    PeerHasDiscoKey [(1, ⟨some epC3⟩)] 1 = false ∧
    endpointForNodeKey [(1, ⟨some epC3⟩)] 1 = some epC3 ∧
    canP2P epC3 = true ∧
    PeerHasDiscoKey [(1, ⟨some { discoKey := 0 }⟩)] 1 = true ∧
    PeerHasDiscoKey [(1, ⟨some epC3⟩)] 2 = false := by
  refine ⟨by decide, by decide, by decide, by decide, by decide⟩

/-- C6.  A pong whose transaction id matches no outstanding ping leaves the
peer record exactly as it was. -/
theorem claim_C6 (de : Endpoint) (m : Pong) (src : IPPort) (now : Time)
    (h : mlookup de.sentPing m.txID = none) :
    handlePongConnLocked de m src now = de := by
  unfold handlePongConnLocked
  rw [h]

def deC6w : Endpoint := { discoKey := 7, sentPing := [(5, ⟨⟨IP.v4 1, 1⟩, 30⟩)] }

/-- C6 witness: a pong with unknown txid 99 against a record with only txid 5
outstanding changes nothing. -/
theorem claim_C6_witness :
    handlePongConnLocked deC6w ⟨99, ⟨IP.v4 1, 1⟩⟩ ⟨IP.v4 1, 1⟩ 50 = deC6w :=
  claim_C6 deC6w ⟨99, ⟨IP.v4 1, 1⟩⟩ ⟨IP.v4 1, 1⟩ 50 (by decide)

theorem derpSendSeq_spec (pkts : List (List Nat)) :
    ∀ st : DerpWriteState, st.donecClosed = false → st.chOpen = true →
    (derpSendSeq st pkts).1 =
      List.replicate (min pkts.length (bufferedDerpWritesBeforeDrop - st.queue.length))
        SendOutcome.ok ++
      List.replicate (pkts.length - (bufferedDerpWritesBeforeDrop - st.queue.length))
        SendOutcome.errDropDerpPacket ∧
    (derpSendSeq st pkts).2.queue =
      st.queue ++ pkts.take (bufferedDerpWritesBeforeDrop - st.queue.length) := by
  induction pkts with
  | nil => intro st hd hc; simp [derpSendSeq]
  | cons b rest ih =>
    intro st hd hc
    by_cases hlen : st.queue.length < bufferedDerpWritesBeforeDrop
    · have hstep : sendAddrDerp st b = (SendOutcome.ok, { st with queue := st.queue ++ [b] }) := by
        simp [sendAddrDerp, hd, hc, hlen]
      obtain ⟨ih1, ih2⟩ := ih { st with queue := st.queue ++ [b] } hd hc
      have hq : ({ st with queue := st.queue ++ [b] } : DerpWriteState).queue.length
          = st.queue.length + 1 := by simp
      have hk : bufferedDerpWritesBeforeDrop - st.queue.length
          = (bufferedDerpWritesBeforeDrop - (st.queue.length + 1)) + 1 := by
        unfold bufferedDerpWritesBeforeDrop at hlen ⊢; omega
      constructor
      · simp only [derpSendSeq, hstep]
        rw [ih1, hq, hk]
        simp [List.replicate_succ, Nat.succ_min_succ, Nat.succ_sub_succ]
      · simp only [derpSendSeq, hstep]
        rw [ih2, hq, hk]
        simp [List.take_succ_cons]
    · have hk0 : bufferedDerpWritesBeforeDrop - st.queue.length = 0 := by omega
      have hstep : sendAddrDerp st b = (SendOutcome.errDropDerpPacket, st) := by
        simp [sendAddrDerp, hd, hc, hlen]
      obtain ⟨ih1, ih2⟩ := ih st hd hc
      constructor
      · simp only [derpSendSeq, hstep]
        rw [ih1, hk0]
        simp [List.replicate_succ]
      · simp only [derpSendSeq, hstep]
        rw [ih2, hk0]
        simp

/-- C7.  Of 33 consecutive relay sends against an open client whose writer
does not consume, the first 32 are accepted, the 33rd is dropped with the
queue-full error, and the channel afterwards holds exactly the first 32
payloads (so nothing of the 33rd send is downstream). -/
theorem claim_C7 (pkts : List (List Nat)) (h : pkts.length = 33) :
    (derpSendSeq {} pkts).1 =
      List.replicate 32 SendOutcome.ok ++ [SendOutcome.errDropDerpPacket] ∧
    (derpSendSeq {} pkts).2.queue = pkts.take 32 ∧
    ∀ p ∈ pkts.drop 32, p ∉ pkts.take 32 → p ∉ (derpSendSeq {} pkts).2.queue := by
  obtain ⟨h1, h2⟩ := derpSendSeq_spec pkts {} rfl rfl
  rw [h] at h1
  refine ⟨?_, ?_, ?_⟩
  · rw [h1]; rfl
  · rw [h2]; rfl
  · intro p _ hnot
    rw [h2]
    simpa using hnot

def pkts33 : List (List Nat) := (List.range 33).map (fun i => [i])

/-- C7 witness: 33 distinct concrete payloads; the outcome list is 32 `ok`
then the drop error, and the 33rd payload `[32]` is not in the queue. -/
theorem claim_C7_witness :
    (derpSendSeq {} pkts33).1 =
      List.replicate 32 SendOutcome.ok ++ [SendOutcome.errDropDerpPacket] ∧
    [32] ∉ (derpSendSeq {} pkts33).2.queue := by
  have h := claim_C7 pkts33 (by decide)
  exact ⟨h.1, h.2.2 [32] (by decide) (by decide)⟩

/-! ## Lemmas about key-nodup preservation and deleteEndpointLocked -/

theorem mkeys_mapVals (f : β → β) (m : List (α × β)) : mkeys (mapVals f m) = mkeys m := by
  induction m with
  | nil => rfl
  | cons p rest ih => obtain ⟨k, v⟩ := p; simp [mapVals, mkeys] at ih ⊢; exact ih

theorem keysNodup_mapVals {f : β → β} {m : List (α × β)} (h : KeysNodup m) :
    KeysNodup (mapVals f m) := by
  unfold KeysNodup
  rw [mkeys_mapVals]
  exact h

theorem mem_mkeys_minsert {m : List (α × β)} {k : α} {v : β} {x : α}
    (h : x ∈ mkeys (minsert m k v)) : x = k ∨ x ∈ mkeys m := by
  unfold mkeys at h
  obtain ⟨p, hp, hfst⟩ := List.mem_map.mp h
  rcases mem_minsert hp with h1 | h1
  · left; rw [← hfst, h1]
  · right; exact List.mem_map.mpr ⟨p, h1, hfst⟩

theorem keysNodup_minsert {m : List (α × β)} (k : α) (v : β) (h : KeysNodup m) :
    KeysNodup (minsert m k v) := by
  induction m with
  | nil => simp [minsert, KeysNodup, mkeys]
  | cons p rest ih =>
    obtain ⟨pk, pv⟩ := p
    simp only [KeysNodup, mkeys, List.map_cons, List.nodup_cons] at h
    by_cases hpk : pk = k
    · subst hpk
      have hstep : minsert ((pk, pv) :: rest) pk v = (pk, v) :: rest := by
        simp [minsert]
      rw [hstep]
      simp only [KeysNodup, mkeys, List.map_cons, List.nodup_cons]
      exact h
    · simp only [minsert, if_neg hpk, KeysNodup, mkeys, List.map_cons, List.nodup_cons]
      refine ⟨?_, ih h.2⟩
      intro hmem
      rcases mem_mkeys_minsert hmem with h1 | h1
      · exact hpk h1
      · exact h.1 h1

theorem mem_mkeys_merase {m : List (α × β)} {k : α} {x : α}
    (h : x ∈ mkeys (merase m k)) : x ∈ mkeys m := by
  unfold mkeys at h
  obtain ⟨p, hp, hfst⟩ := List.mem_map.mp h
  exact List.mem_map.mpr ⟨p, (mem_merase hp).1, hfst⟩

theorem keysNodup_merase {m : List (α × β)} (k : α) (h : KeysNodup m) :
    KeysNodup (merase m k) := by
  induction m with
  | nil => simp [merase, KeysNodup, mkeys]
  | cons p rest ih =>
    obtain ⟨pk, pv⟩ := p
    simp only [KeysNodup, mkeys, List.map_cons, List.nodup_cons] at h
    by_cases hpk : pk = k
    · simp only [merase, if_pos hpk]
      exact ih h.2
    · simp only [merase, if_neg hpk, KeysNodup, mkeys, List.map_cons, List.nodup_cons]
      exact ⟨fun hmem => h.1 (mem_mkeys_merase hmem), ih h.2⟩

theorem not_mem_keys_iff {m : List (α × β)} {x : α} :
    x ∉ mkeys m ↔ ∀ p ∈ m, p.1 ≠ x := by
  unfold mkeys
  constructor
  · intro h p hp he
    exact h (List.mem_map.mpr ⟨p, hp, he⟩)
  · intro h hmem
    obtain ⟨p, hp, hfst⟩ := List.mem_map.mp hmem
    exact h p hp hfst

theorem deleteEndpoint_es (de : Endpoint) (ep : IPPort) :
    (deleteEndpointLocked de ep).endpointState = merase de.endpointState ep := by
  simp only [deleteEndpointLocked]
  split <;> rfl

theorem deleteEndpoint_lookup (de : Endpoint) (ep x : IPPort) :
    mlookup (deleteEndpointLocked de ep).endpointState x =
      if ep = x then none else mlookup de.endpointState x := by
  rw [deleteEndpoint_es, mlookup_merase]

theorem deleteEndpoint_isCMM (de : Endpoint) (ep : IPPort) :
    (deleteEndpointLocked de ep).isCallMeMaybeEP = de.isCallMeMaybeEP := by
  simp only [deleteEndpointLocked]
  split <;> rfl

theorem deleteEndpoint_best (de : Endpoint) (ep : IPPort) :
    (deleteEndpointLocked de ep).bestAddr =
      if de.bestAddr.ipp = ep then addrLatency.zero else de.bestAddr := by
  simp only [deleteEndpointLocked]
  split <;> simp_all

theorem deleteEndpoint_keysNodup {de : Endpoint} (ep : IPPort)
    (h : KeysNodup de.endpointState) : KeysNodup (deleteEndpointLocked de ep).endpointState := by
  rw [deleteEndpoint_es]
  exact keysNodup_merase ep h

/-! ## Lemmas about the garbage-collection pass -/

theorem gcLoop_es_none (nw : Time) (snap : List (IPPort × endpointState)) (x : IPPort) :
    ∀ de : Endpoint, mlookup de.endpointState x = none →
      mlookup (gcLoop nw de snap).endpointState x = none := by
  induction snap with
  | nil => intro de h; simpa [gcLoop] using h
  | cons p rest ih =>
    obtain ⟨e0, s0⟩ := p
    intro de h
    simp only [gcLoop]
    apply ih
    split
    · rw [deleteEndpoint_lookup]
      split <;> simp [h]
    · exact h

theorem gcLoop_es_other (nw : Time) (snap : List (IPPort × endpointState)) (x : IPPort) :
    ∀ de : Endpoint, (∀ p ∈ snap, p.1 ≠ x) →
      mlookup (gcLoop nw de snap).endpointState x = mlookup de.endpointState x := by
  induction snap with
  | nil => intro de _; simp [gcLoop]
  | cons p rest ih =>
    obtain ⟨e0, s0⟩ := p
    intro de h
    have he0 : e0 ≠ x := h (e0, s0) (List.mem_cons_self _ _)
    have hrest : ∀ p ∈ rest, p.1 ≠ x := fun p hp => h p (List.mem_cons_of_mem _ hp)
    simp only [gcLoop]
    rw [ih _ hrest]
    split
    · rw [deleteEndpoint_lookup, if_neg he0]
    · rfl

theorem gcLoop_char (nw : Time) (snap : List (IPPort × endpointState)) :
    ∀ de : Endpoint, KeysNodup snap →
      (∀ p ∈ snap, mlookup de.endpointState p.1 = some p.2) →
      ∀ x s, mlookup snap x = some s →
        mlookup (gcLoop nw de snap).endpointState x =
          if shouldDeleteLocked nw s = true then none else some s := by
  induction snap with
  | nil => intro de _ _ x s hx; simp [mlookup] at hx
  | cons p rest ih =>
    obtain ⟨e0, s0⟩ := p
    intro de hnd hagree x s hx
    simp only [KeysNodup, mkeys, List.map_cons, List.nodup_cons] at hnd
    have hnd' : KeysNodup rest := hnd.2
    have he0 : ∀ p ∈ rest, p.1 ≠ e0 := not_mem_keys_iff.mp hnd.1
    have hagree' : ∀ q ∈ rest,
        mlookup (if shouldDeleteLocked nw s0 = true then deleteEndpointLocked de e0 else de).endpointState q.1
          = some q.2 := by
      intro q hq
      have hne : e0 ≠ q.1 := fun he => he0 q hq he.symm
      split
      · rw [deleteEndpoint_lookup, if_neg hne]
        exact hagree q (List.mem_cons_of_mem _ hq)
      · exact hagree q (List.mem_cons_of_mem _ hq)
    by_cases hx0 : e0 = x
    · subst hx0
      have hs : s = s0 := by
        simp [mlookup] at hx
        exact hx.symm
      subst hs
      have hother : ∀ p ∈ rest, p.1 ≠ e0 := he0
      by_cases hdel : shouldDeleteLocked nw s = true
      · have hgc : gcLoop nw de ((e0, s) :: rest) = gcLoop nw (deleteEndpointLocked de e0) rest := by
          simp [gcLoop, hdel]
        rw [hgc, if_pos hdel]
        apply gcLoop_es_none
        rw [deleteEndpoint_lookup, if_pos rfl]
      · have hgc : gcLoop nw de ((e0, s) :: rest) = gcLoop nw de rest := by
          simp [gcLoop, hdel]
        rw [hgc, if_neg hdel, gcLoop_es_other _ _ _ _ hother]
        exact hagree (e0, s) (List.mem_cons_self _ _)
    · have hx' : mlookup rest x = some s := by
        simpa [mlookup, hx0] using hx
      simp only [gcLoop]
      exact ih _ hnd' hagree' x s hx'

theorem gcLoop_no_deletable (nw : Time) (de : Endpoint)
    (hnd : KeysNodup de.endpointState) :
    ∀ x s, mlookup (gcLoop nw de de.endpointState).endpointState x = some s →
      shouldDeleteLocked nw s = false := by
  intro x s hfin
  cases hcur : mlookup de.endpointState x with
  | none =>
    rw [gcLoop_es_none nw de.endpointState x de hcur] at hfin
    exact absurd hfin (by simp)
  | some s0 =>
    have hagree : ∀ p ∈ de.endpointState, mlookup de.endpointState p.1 = some p.2 :=
      fun p hp => mlookup_eq_some_of_mem_nodup hnd hp
    have hchar := gcLoop_char nw de.endpointState de hnd hagree x s0 hcur
    rw [hchar] at hfin
    by_cases hdel : shouldDeleteLocked nw s0 = true
    · rw [if_pos hdel] at hfin
      exact absurd hfin (by simp)
    · rw [if_neg hdel] at hfin
      have : s = s0 := by injection hfin.symm
      rw [this]
      exact Bool.not_eq_true _ ▸ (Bool.eq_false_iff.mpr hdel)

theorem applyEndpointsLoop_keysNodup (eps : List (Nat × Option IPPort)) :
    ∀ de : Endpoint, KeysNodup de.endpointState →
      KeysNodup (applyEndpointsLoop de eps).endpointState := by
  induction eps with
  | nil => intro de h; exact h
  | cons p rest ih =>
    obtain ⟨i, oipp⟩ := p
    intro de h
    match oipp with
    | none => exact ih de h
    | some ipp =>
      simp only [applyEndpointsLoop]
      split
      · exact ih de h
      · split
        · exact ih _ (keysNodup_minsert _ _ h)
        · exact ih _ (keysNodup_minsert _ _ h)

theorem updateFromNodeApply_keysNodup (de : Endpoint) (n : Node)
    (h : KeysNodup de.endpointState) : KeysNodup (updateFromNodeApply de n).endpointState := by
  unfold updateFromNodeApply
  exact applyEndpointsLoop_keysNodup _ _ (keysNodup_mapVals h)

/-- C5.  The garbage-collection rule: `shouldDeleteLocked` holds iff the state
has no call-me-maybe stamp and (for a runtime-learned state) its last inbound
ping is older than `sessionActiveTimeout`, or (for an advertised state) its
index is the deleted sentinel; deleting a path clears `bestAddr` exactly when
it was the best path and removes the state; and the GC pass of a network-map
update keeps a path state iff `shouldDeleteLocked` rejects it. -/
theorem claim_C5 (now : Time) (st : endpointState) (de : Endpoint) (ep : IPPort) (n : Node)
    (e : IPPort) (s : endpointState)
    (hnd : KeysNodup de.endpointState)
    (hpre : mlookup (updateFromNodeApply de n).endpointState e = some s) :
    (shouldDeleteLocked now st = true ↔
      st.callMeMaybeTime = 0 ∧
        (if st.lastGotPing ≠ 0 then sessionActiveTimeout < now - st.lastGotPing
         else st.index = indexSentinelDeleted)) ∧
    ((deleteEndpointLocked de ep).bestAddr =
      if de.bestAddr.ipp = ep then addrLatency.zero else de.bestAddr) ∧
    (mlookup (deleteEndpointLocked de ep).endpointState ep = none) ∧
    (mlookup (updateFromNode de n now).endpointState e =
      if shouldDeleteLocked now s = true then none else some s) := by
  refine ⟨?_, deleteEndpoint_best de ep, ?_, ?_⟩
  · by_cases h1 : st.callMeMaybeTime = 0
    · by_cases h2 : st.lastGotPing = 0
      · simp [shouldDeleteLocked, h1, h2]
      · simp [shouldDeleteLocked, h1, h2]
    · simp [shouldDeleteLocked, h1]
  · rw [deleteEndpoint_lookup, if_pos rfl]
  · have hnd2 := updateFromNodeApply_keysNodup de n hnd
    have hagree : ∀ p ∈ (updateFromNodeApply de n).endpointState,
        mlookup (updateFromNodeApply de n).endpointState p.1 = some p.2 :=
      fun p hp => mlookup_eq_some_of_mem_nodup hnd2 hp
    unfold updateFromNode
    exact gcLoop_char now _ _ hnd2 hagree e s hpre

def deC5w : Endpoint :=
  { discoKey := 7
    endpointState := [(⟨IP.v4 1, 1⟩, { index := 0 })] }

/-- C5 witness: a single advertised path, removed by an empty network-map
update: its pre-GC state carries the deleted sentinel, `shouldDeleteLocked`
accepts it, and the GC pass removes it. -/
theorem claim_C5_witness :
    mlookup (updateFromNode deC5w { } 7).endpointState ⟨IP.v4 1, 1⟩ = none := by
  have h := (claim_C5 7 { } deC5w ⟨IP.v4 1, 1⟩ { } ⟨IP.v4 1, 1⟩
      { index := indexSentinelDeleted } (by decide) (by decide)).2.2.2
  rw [h, if_pos (by decide)]

/-- C10.  Learning a new candidate path from an inbound disco ping when the
candidate map thereby grows beyond 100 entries triggers an immediate cleanup:
the resulting map contains no path state that `shouldDeleteLocked` condemns. -/
theorem claim_C10 (de : Endpoint) (ep : IPPort) (nowW : Time)
    (hnd : KeysNodup de.endpointState)
    (hnew : mlookup de.endpointState ep = none)
    (hgrow : 100 < (minsert de.endpointState ep { lastGotPing := nowW }).length)
    (e : IPPort) (s : endpointState)
    (hfin : mlookup (addCandidateEndpoint de ep nowW).endpointState e = some s) :
    shouldDeleteLocked nowW s = false := by
  have hstep : addCandidateEndpoint de ep nowW =
      gcLoop nowW { de with endpointState := minsert de.endpointState ep { lastGotPing := nowW } }
        (minsert de.endpointState ep { lastGotPing := nowW }) := by
    unfold addCandidateEndpoint
    rw [hnew]
    simp [hgrow]
  rw [hstep] at hfin
  exact gcLoop_no_deletable nowW _ (keysNodup_minsert _ _ hnd) e s hfin

def esC10 : List (IPPort × endpointState) :=
  (List.range 100).map (fun i => (⟨IP.v4 i, 1⟩, { lastGotPing := 1 }))

def deC10 : Endpoint := { discoKey := 7, endpointState := esC10 }

set_option maxRecDepth 8000 in
/-- C10 witness: 100 stale runtime-learned candidates plus a fresh one; the
cleanup fires and the surviving fresh state is not deletable. -/
theorem claim_C10_witness :
    shouldDeleteLocked 999000000000 { lastGotPing := 999000000000 } = false :=
  claim_C10 deC10 ⟨IP.v4 200, 1⟩ 999000000000 (by decide) (by decide) (by decide)
    ⟨IP.v4 200, 1⟩ { lastGotPing := 999000000000 } (by decide)

/-! ## The best-address/candidate-map consistency invariant (C8) -/

/-- Invariant 3 of the spec: whenever `bestAddr` is non-empty, its address is
a key of the candidate map. -/
def bestAddrConsistent (de : Endpoint) : Bool :=
  de.bestAddr.ipp.isZero || (mlookup de.endpointState de.bestAddr.ipp).isSome

theorem zero_addrLatency_isZero : addrLatency.zero.ipp.isZero = true := by decide

theorem inv_of_parts {de' : Endpoint} (de : Endpoint) (h : bestAddrConsistent de = true)
    (hbest : de'.bestAddr.ipp = de.bestAddr.ipp)
    (hes : ∀ x, (mlookup de.endpointState x).isSome = true →
      (mlookup de'.endpointState x).isSome = true) : bestAddrConsistent de' = true := by
  unfold bestAddrConsistent at h ⊢
  rw [hbest]
  rw [Bool.or_eq_true] at h
  rcases h with h1 | h1
  · simp [h1]
  · simp [hes _ h1]

theorem inv_deleteEndpoint {de : Endpoint} (ep : IPPort)
    (h : bestAddrConsistent de = true) :
    bestAddrConsistent (deleteEndpointLocked de ep) = true := by
  unfold bestAddrConsistent at h ⊢
  rw [deleteEndpoint_best, deleteEndpoint_es]
  by_cases hc : de.bestAddr.ipp = ep
  · rw [if_pos hc]
    simp [zero_addrLatency_isZero]
  · rw [if_neg hc, mlookup_merase, if_neg (fun he => hc he.symm)]
    exact h

theorem lookup_isSome_minsert {m : List (α × β)} (k : α) (v : β) (x : α)
    (h : (mlookup m x).isSome = true) : (mlookup (minsert m k v) x).isSome = true := by
  rw [mlookup_minsert]
  split <;> simp_all

theorem inv_gcLoop (nw : Time) (snap : List (IPPort × endpointState)) :
    ∀ de : Endpoint, bestAddrConsistent de = true →
      bestAddrConsistent (gcLoop nw de snap) = true := by
  induction snap with
  | nil => intro de h; exact h
  | cons p rest ih =>
    obtain ⟨e0, s0⟩ := p
    intro de h
    simp only [gcLoop]
    apply ih
    split
    · exact inv_deleteEndpoint e0 h
    · exact h

theorem inv_applyEndpointsLoop (eps : List (Nat × Option IPPort)) :
    ∀ de : Endpoint, bestAddrConsistent de = true →
      bestAddrConsistent (applyEndpointsLoop de eps) = true := by
  induction eps with
  | nil => intro de h; exact h
  | cons p rest ih =>
    obtain ⟨i, oipp⟩ := p
    intro de h
    match oipp with
    | none => exact ih de h
    | some ipp =>
      simp only [applyEndpointsLoop]
      split
      · exact ih de h
      · split
        · exact ih _ (inv_of_parts de h rfl (fun x => lookup_isSome_minsert _ _ x))
        · exact ih _ (inv_of_parts de h rfl (fun x => lookup_isSome_minsert _ _ x))

theorem inv_mapVals_es (f : endpointState → endpointState) (de : Endpoint)
    (h : bestAddrConsistent de = true) :
    bestAddrConsistent { de with endpointState := mapVals f de.endpointState } = true := by
  refine inv_of_parts de h rfl (fun x hx => ?_)
  rw [mlookup_mapVals]
  cases hmx : mlookup de.endpointState x with
  | none => rw [hmx] at hx; simp at hx
  | some v => rfl

theorem inv_updateFromNode (de : Endpoint) (n : Node) (nw : Time)
    (h : bestAddrConsistent de = true) :
    bestAddrConsistent (updateFromNode de n nw) = true := by
  unfold updateFromNode
  apply inv_gcLoop
  unfold updateFromNodeApply
  apply inv_applyEndpointsLoop
  exact inv_mapVals_es _ _ (inv_of_parts de h rfl (fun x hx => hx))

theorem inv_startPingLocked (de : Endpoint) (ep : IPPort) (now : Time)
    (h : bestAddrConsistent de = true) :
    bestAddrConsistent (startPingLocked de ep now).1 = true := by
  unfold startPingLocked
  cases hst : mlookup de.endpointState ep with
  | none => exact h
  | some st => exact inv_of_parts de h rfl (fun x => lookup_isSome_minsert _ _ x)

theorem inv_sendPingsLoop (nowM nowW : Time) (snap : List (IPPort × endpointState)) :
    ∀ de : Endpoint, bestAddrConsistent de = true →
      bestAddrConsistent (sendPingsLoop nowM nowW de snap).1 = true := by
  induction snap with
  | nil => intro de h; exact h
  | cons p rest ih =>
    obtain ⟨e0, s0⟩ := p
    intro de h
    simp only [sendPingsLoop]
    split
    · exact ih _ (inv_deleteEndpoint e0 h)
    · split
      · exact ih _ h
      · exact ih _ (inv_startPingLocked de e0 nowM h)

theorem inv_sendPingsLocked (de : Endpoint) (nowM nowW : Time) (scmm : Bool)
    (h : bestAddrConsistent de = true) :
    bestAddrConsistent (sendPingsLocked de nowM nowW scmm).1 = true := by
  unfold sendPingsLocked
  apply inv_sendPingsLoop
  exact inv_of_parts de h rfl (fun x hx => hx)

theorem inv_cmmLoop (nowW : Time) (eps : List IPPort) :
    ∀ de : Endpoint, bestAddrConsistent de = true →
      bestAddrConsistent (cmmLoop nowW de eps) = true := by
  induction eps with
  | nil => intro de h; exact h
  | cons ep rest ih =>
    intro de h
    simp only [cmmLoop]
    split
    · exact ih de h
    · have h1 : bestAddrConsistent
          { de with isCallMeMaybeEP := minsert de.isCallMeMaybeEP ep true } = true :=
        inv_of_parts de h rfl (fun x hx => hx)
      split
      · exact ih _ (inv_of_parts _ h1 rfl (fun x => lookup_isSome_minsert _ _ x))
      · exact ih _ (inv_of_parts _ h1 rfl (fun x => lookup_isSome_minsert _ _ x))

theorem inv_cmmDeleteLoop (snap : List (IPPort × Bool)) :
    ∀ de : Endpoint, bestAddrConsistent de = true →
      bestAddrConsistent (cmmDeleteLoop de snap) = true := by
  induction snap with
  | nil => intro de h; exact h
  | cons p rest ih =>
    obtain ⟨ep, want⟩ := p
    intro de h
    simp only [cmmDeleteLoop]
    split
    · exact ih de h
    · apply ih
      apply inv_deleteEndpoint
      exact inv_of_parts de h rfl (fun x hx => hx)

theorem inv_handleCallMeMaybe (de : Endpoint) (S : List IPPort) (nowW nowM : Time)
    (h : bestAddrConsistent de = true) :
    bestAddrConsistent (handleCallMeMaybe de S nowW nowM).1 = true := by
  simp only [handleCallMeMaybe]
  refine inv_sendPingsLocked _ _ _ _ ?_
  apply inv_mapVals_es
  apply inv_cmmDeleteLoop
  apply inv_cmmLoop
  exact inv_of_parts de h rfl (fun x hx => hx)

theorem inv_addCandidateEndpoint (de : Endpoint) (ep : IPPort) (nowW : Time)
    (h : bestAddrConsistent de = true) :
    bestAddrConsistent (addCandidateEndpoint de ep nowW) = true := by
  unfold addCandidateEndpoint
  cases hst : mlookup de.endpointState ep with
  | some st =>
    show bestAddrConsistent
      (if st.lastGotPing = 0 then de
       else { de with
              endpointState := minsert de.endpointState ep { st with lastGotPing := nowW } }) = true
    by_cases hp : st.lastGotPing = 0
    · rw [if_pos hp]; exact h
    · rw [if_neg hp]
      exact inv_of_parts de h rfl (fun x => lookup_isSome_minsert _ _ x)
  | none =>
    have h1 : bestAddrConsistent
        { de with endpointState := minsert de.endpointState ep { lastGotPing := nowW } } = true :=
      inv_of_parts de h rfl (fun x => lookup_isSome_minsert _ _ x)
    show bestAddrConsistent
      (if 100 < (minsert de.endpointState ep { lastGotPing := nowW }).length then
        gcLoop nowW { de with endpointState := minsert de.endpointState ep { lastGotPing := nowW } }
          (minsert de.endpointState ep { lastGotPing := nowW })
       else { de with endpointState := minsert de.endpointState ep { lastGotPing := nowW } }) = true
    by_cases hg : 100 < (minsert de.endpointState ep
        ({ lastGotPing := nowW } : endpointState)).length
    · rw [if_pos hg]
      exact inv_gcLoop _ _ _ h1
    · rw [if_neg hg]
      exact h1

theorem inv_handlePongPromote (de3 : Endpoint) (thisPong : addrLatency) (now : Time)
    (h3 : bestAddrConsistent de3 = true)
    (ht : (mlookup de3.endpointState thisPong.ipp).isSome = true) :
    bestAddrConsistent (handlePongPromote de3 thisPong now) = true := by
  unfold handlePongPromote
  by_cases hb : betterAddr thisPong de3.bestAddr = true
  · simp only [hb, if_true, if_pos rfl]
    unfold bestAddrConsistent
    simp only []
    rw [Bool.or_eq_true]
    right
    exact ht
  · simp only [hb, Bool.false_eq_true, if_false]
    by_cases he : de3.bestAddr.ipp = thisPong.ipp
    · rw [if_pos he]
      unfold bestAddrConsistent
      simp only []
      rw [Bool.or_eq_true]
      right
      rw [he]
      exact ht
    · rw [if_neg he]
      exact h3

theorem inv_handlePong (de : Endpoint) (m : Pong) (src : IPPort) (now : Time)
    (h : bestAddrConsistent de = true) :
    bestAddrConsistent (handlePongConnLocked de m src now) = true := by
  unfold handlePongConnLocked
  cases hsp : mlookup de.sentPing m.txID with
  | none => exact h
  | some sp =>
    simp only []
    have h1 : bestAddrConsistent { de with sentPing := merase de.sentPing m.txID } = true :=
      inv_of_parts de h rfl (fun x hx => hx)
    by_cases hderp : src.ip = derpMagicIPAddr
    · rw [if_pos hderp]
      exact inv_of_parts _ h1 rfl (fun x hx => hx)
    · rw [if_neg hderp]
      cases hst : mlookup ({ de with sentPing := merase de.sentPing m.txID } : Endpoint).endpointState
          sp.toAddr with
      | none => exact h1
      | some st =>
        simp only []
        apply inv_handlePongPromote
        · refine inv_of_parts _ h1 rfl (fun x hx => ?_)
          exact lookup_isSome_minsert _ _ x hx
        · simp only []
          rw [mlookup_minsert, if_pos rfl]
          rfl

/-- C8.  Every operation that mutates per-peer path state preserves the
invariant that a non-empty `bestAddr` is a key of the candidate map: pong
handling (including promotion), endpoint deletion, network-map update,
call-me-maybe handling, and candidate learning with its pruning pass. -/
theorem claim_C8 (de : Endpoint) (hinv : bestAddrConsistent de = true)
    (m : Pong) (src : IPPort) (now : Time) (ep : IPPort) (n : Node) (nw : Time)
    (S : List IPPort) (nowW nowM : Time) :
    bestAddrConsistent (handlePongConnLocked de m src now) = true ∧
    bestAddrConsistent (deleteEndpointLocked de ep) = true ∧
    bestAddrConsistent (updateFromNode de n nw) = true ∧
    bestAddrConsistent (handleCallMeMaybe de S nowW nowM).1 = true ∧
    bestAddrConsistent (addCandidateEndpoint de ep nw) = true :=
  ⟨inv_handlePong de m src now hinv,
   inv_deleteEndpoint ep hinv,
   inv_updateFromNode de n nw hinv,
   inv_handleCallMeMaybe de S nowW nowM hinv,
   inv_addCandidateEndpoint de ep nw hinv⟩

def ipA : IPPort := ⟨IP.v4 1, 1⟩

def ipB : IPPort := ⟨IP.v4 2, 2⟩

def deC8w : Endpoint :=
  { discoKey := 7
    derpAddr := ⟨derpMagicIPAddr, 1⟩
    bestAddr := ⟨⟨IP.v4 1, 1⟩, 10⟩
    trustBestAddrUntil := 40
    sentPing := [(5, ⟨⟨IP.v4 1, 1⟩, 30⟩)]
    endpointState := [(⟨IP.v4 1, 1⟩, { index := 0 })]
    isCallMeMaybeEP := [(⟨IP.v4 1, 1⟩, true)] }

/-- C8 witness: a concrete consistent record stays consistent under all five
operations (the pong here carries an unknown transaction id). -/
theorem claim_C8_witness :
    bestAddrConsistent (handlePongConnLocked deC8w ⟨99, ipA⟩ ipA 50) = true ∧
    bestAddrConsistent (deleteEndpointLocked deC8w ipA) = true ∧
    bestAddrConsistent (updateFromNode deC8w { derp := ⟨derpMagicIPAddr, 1⟩, endpoints := [some ipA] } 50) = true ∧
    bestAddrConsistent (handleCallMeMaybe deC8w [ipB] 50 50).1 = true ∧
    bestAddrConsistent (addCandidateEndpoint deC8w ipB 50) = true :=
  claim_C8 deC8w (by decide) ⟨99, ipA⟩ ipA 50 ipA
    { derp := ⟨derpMagicIPAddr, 1⟩, endpoints := [some ipA] } 50 [ipB] 50 50

/-! ## Lemmas about the call-me-maybe phases -/

theorem cmmLoop_untouched (nowW : Time) (S : List IPPort) :
    ∀ (de : Endpoint) (x : IPPort),
      (∀ ep ∈ S, (ep.ip.is6 && ep.ip.isLinkLocalUnicast) = false → ep ≠ x) →
      mlookup (cmmLoop nowW de S).isCallMeMaybeEP x = mlookup de.isCallMeMaybeEP x ∧
      mlookup (cmmLoop nowW de S).endpointState x = mlookup de.endpointState x := by
  induction S with
  | nil => intro de x _; exact ⟨rfl, rfl⟩
  | cons ep rest ih =>
    intro de x hx
    have hrest : ∀ e ∈ rest, (e.ip.is6 && e.ip.isLinkLocalUnicast) = false → e ≠ x :=
      fun e he => hx e (List.mem_cons_of_mem _ he)
    by_cases hll : (ep.ip.is6 && ep.ip.isLinkLocalUnicast) = true
    · simp only [cmmLoop, hll, if_true]
      exact ih de x hrest
    · have hll' : (ep.ip.is6 && ep.ip.isLinkLocalUnicast) = false := by
        revert hll; cases ep.ip.is6 && ep.ip.isLinkLocalUnicast <;> simp
      have hne : ep ≠ x := hx ep (List.mem_cons_self _ _) hll'
      simp only [cmmLoop, hll, Bool.false_eq_true, if_false]
      cases hlk : mlookup ({ de with isCallMeMaybeEP := minsert de.isCallMeMaybeEP ep true } :
          Endpoint).endpointState ep with
      | some es =>
        simp only [hlk]
        obtain ⟨ha, hb⟩ := ih _ x hrest
        rw [ha, hb]
        constructor
        · simp only []
          rw [mlookup_minsert, if_neg hne]
        · simp only []
          rw [mlookup_minsert, if_neg hne]
      | none =>
        simp only [hlk]
        obtain ⟨ha, hb⟩ := ih _ x hrest
        rw [ha, hb]
        constructor
        · simp only []
          rw [mlookup_minsert, if_neg hne]
        · simp only []
          rw [mlookup_minsert, if_neg hne]

theorem cmmLoop_pres (nowW : Time) (S : List IPPort) :
    ∀ (de : Endpoint) (ep : IPPort), mlookup de.isCallMeMaybeEP ep = some true →
      (∃ st, mlookup de.endpointState ep = some st ∧ st.callMeMaybeTime = nowW) →
      mlookup (cmmLoop nowW de S).isCallMeMaybeEP ep = some true ∧
      ∃ st, mlookup (cmmLoop nowW de S).endpointState ep = some st ∧
        st.callMeMaybeTime = nowW := by
  induction S with
  | nil => intro de ep h1 h2; exact ⟨h1, h2⟩
  | cons y rest ih =>
    intro de ep h1 h2
    by_cases hll : (y.ip.is6 && y.ip.isLinkLocalUnicast) = true
    · simp only [cmmLoop, hll, if_true]
      exact ih de ep h1 h2
    · simp only [cmmLoop, hll, Bool.false_eq_true, if_false]
      obtain ⟨st, hst, hcmm⟩ := h2
      by_cases hye : y = ep
      · subst hye
        have hlk : mlookup ({ de with isCallMeMaybeEP := minsert de.isCallMeMaybeEP y true } :
            Endpoint).endpointState y = some st := hst
        simp only [hlk]
        apply ih
        · simp only []
          rw [mlookup_minsert, if_pos rfl]
        · refine ⟨{ st with callMeMaybeTime := nowW }, ?_, rfl⟩
          simp only []
          rw [mlookup_minsert, if_pos rfl]
      · cases hlk : mlookup ({ de with isCallMeMaybeEP := minsert de.isCallMeMaybeEP y true } :
            Endpoint).endpointState y with
        | some es =>
          simp only [hlk]
          apply ih
          · simp only []
            rw [mlookup_minsert, if_neg hye]
            exact h1
          · refine ⟨st, ?_, hcmm⟩
            simp only []
            rw [mlookup_minsert, if_neg hye]
            exact hst
        | none =>
          simp only [hlk]
          apply ih
          · simp only []
            rw [mlookup_minsert, if_neg hye]
            exact h1
          · refine ⟨st, ?_, hcmm⟩
            simp only []
            rw [mlookup_minsert, if_neg hye]
            exact hst

theorem cmmLoop_establish (nowW : Time) (S : List IPPort) :
    ∀ (de : Endpoint) (ep : IPPort), ep ∈ S →
      (ep.ip.is6 && ep.ip.isLinkLocalUnicast) = false →
      mlookup (cmmLoop nowW de S).isCallMeMaybeEP ep = some true ∧
      ∃ st, mlookup (cmmLoop nowW de S).endpointState ep = some st ∧
        st.callMeMaybeTime = nowW := by
  induction S with
  | nil => intro de ep h; simp at h
  | cons y rest ih =>
    intro de ep hmem hll
    by_cases hye : y = ep
    · subst hye
      simp only [cmmLoop, hll, Bool.false_eq_true, if_false]
      cases hlk : mlookup ({ de with isCallMeMaybeEP := minsert de.isCallMeMaybeEP y true } :
          Endpoint).endpointState y with
      | some es =>
        simp only [hlk]
        apply cmmLoop_pres
        · simp only []
          rw [mlookup_minsert, if_pos rfl]
        · refine ⟨{ es with callMeMaybeTime := nowW }, ?_, rfl⟩
          simp only []
          rw [mlookup_minsert, if_pos rfl]
      | none =>
        simp only [hlk]
        apply cmmLoop_pres
        · simp only []
          rw [mlookup_minsert, if_pos rfl]
        · refine ⟨{ callMeMaybeTime := nowW }, ?_, rfl⟩
          simp only []
          rw [mlookup_minsert, if_pos rfl]
    · have hmem' : ep ∈ rest := by
        rcases List.mem_cons.mp hmem with h | h
        · exact absurd h.symm hye
        · exact h
      by_cases hlly : (y.ip.is6 && y.ip.isLinkLocalUnicast) = true
      · simp only [cmmLoop, hlly, if_true]
        exact ih de ep hmem' hll
      · simp only [cmmLoop, hlly, Bool.false_eq_true, if_false]
        cases hlk : mlookup ({ de with isCallMeMaybeEP := minsert de.isCallMeMaybeEP y true } :
            Endpoint).endpointState y with
        | some es =>
          simp only [hlk]
          exact ih _ ep hmem' hll
        | none =>
          simp only [hlk]
          exact ih _ ep hmem' hll

theorem cmmLoop_isCMM_keysNodup (nowW : Time) (S : List IPPort) :
    ∀ de : Endpoint, KeysNodup de.isCallMeMaybeEP →
      KeysNodup (cmmLoop nowW de S).isCallMeMaybeEP := by
  induction S with
  | nil => intro de h; exact h
  | cons y rest ih =>
    intro de h
    by_cases hll : (y.ip.is6 && y.ip.isLinkLocalUnicast) = true
    · simp only [cmmLoop, hll, if_true]
      exact ih de h
    · simp only [cmmLoop, hll, Bool.false_eq_true, if_false]
      cases hlk : mlookup ({ de with isCallMeMaybeEP := minsert de.isCallMeMaybeEP y true } :
          Endpoint).endpointState y with
      | some es =>
        simp only [hlk]
        exact ih _ (keysNodup_minsert _ _ h)
      | none =>
        simp only [hlk]
        exact ih _ (keysNodup_minsert _ _ h)

theorem cmmLoop_es_keysNodup (nowW : Time) (S : List IPPort) :
    ∀ de : Endpoint, KeysNodup de.endpointState →
      KeysNodup (cmmLoop nowW de S).endpointState := by
  induction S with
  | nil => intro de h; exact h
  | cons y rest ih =>
    intro de h
    by_cases hll : (y.ip.is6 && y.ip.isLinkLocalUnicast) = true
    · simp only [cmmLoop, hll, if_true]
      exact ih de h
    · simp only [cmmLoop, hll, Bool.false_eq_true, if_false]
      cases hlk : mlookup ({ de with isCallMeMaybeEP := minsert de.isCallMeMaybeEP y true } :
          Endpoint).endpointState y with
      | some es =>
        simp only [hlk]
        exact ih _ (keysNodup_minsert _ _ h)
      | none =>
        simp only [hlk]
        exact ih _ (keysNodup_minsert _ _ h)

theorem cmmDeleteLoop_cmm_none (snap : List (IPPort × Bool)) :
    ∀ (de : Endpoint) (x : IPPort), mlookup de.isCallMeMaybeEP x = none →
      mlookup (cmmDeleteLoop de snap).isCallMeMaybeEP x = none := by
  induction snap with
  | nil => intro de x h; exact h
  | cons p rest ih =>
    obtain ⟨e, w⟩ := p
    intro de x h
    simp only [cmmDeleteLoop]
    split
    · exact ih de x h
    · apply ih
      rw [deleteEndpoint_isCMM]
      simp only []
      rw [mlookup_merase]
      split <;> simp [h]

theorem cmmDeleteLoop_es_none (snap : List (IPPort × Bool)) :
    ∀ (de : Endpoint) (x : IPPort), mlookup de.endpointState x = none →
      mlookup (cmmDeleteLoop de snap).endpointState x = none := by
  induction snap with
  | nil => intro de x h; exact h
  | cons p rest ih =>
    obtain ⟨e, w⟩ := p
    intro de x h
    simp only [cmmDeleteLoop]
    split
    · exact ih de x h
    · apply ih
      rw [deleteEndpoint_lookup]
      split <;> simp [h]

theorem cmmDeleteLoop_erased (snap : List (IPPort × Bool)) :
    ∀ (de : Endpoint) (x : IPPort), (x, false) ∈ snap →
      mlookup (cmmDeleteLoop de snap).isCallMeMaybeEP x = none ∧
      mlookup (cmmDeleteLoop de snap).endpointState x = none := by
  induction snap with
  | nil => intro de x h; simp at h
  | cons p rest ih =>
    obtain ⟨e, w⟩ := p
    intro de x hmem
    by_cases hw : w = true
    · subst hw
      have hmem' : (x, false) ∈ rest := by
        rcases List.mem_cons.mp hmem with h | h
        · exact absurd (congrArg Prod.snd h) (by simp)
        · exact h
      simp only [cmmDeleteLoop, if_pos rfl, if_true]
      exact ih de x hmem'
    · have hw' : w = false := by revert hw; cases w <;> simp
      subst hw'
      simp only [cmmDeleteLoop, Bool.false_eq_true, if_false]
      by_cases hex : e = x
      · subst hex
        constructor
        · apply cmmDeleteLoop_cmm_none
          rw [deleteEndpoint_isCMM]
          simp only []
          rw [mlookup_merase, if_pos rfl]
        · apply cmmDeleteLoop_es_none
          rw [deleteEndpoint_lookup, if_pos rfl]
      · have hmem' : (x, false) ∈ rest := by
          rcases List.mem_cons.mp hmem with h | h
          · exact absurd (congrArg Prod.fst h) (fun he => hex he.symm)
          · exact h
        exact ih _ x hmem'

theorem cmmDeleteLoop_preserved (snap : List (IPPort × Bool)) :
    ∀ (de : Endpoint) (x : IPPort), (∀ w, (x, w) ∈ snap → w = true) →
      mlookup (cmmDeleteLoop de snap).isCallMeMaybeEP x = mlookup de.isCallMeMaybeEP x ∧
      mlookup (cmmDeleteLoop de snap).endpointState x = mlookup de.endpointState x := by
  induction snap with
  | nil => intro de x _; exact ⟨rfl, rfl⟩
  | cons p rest ih =>
    obtain ⟨e, w⟩ := p
    intro de x hall
    have hall' : ∀ w, (x, w) ∈ rest → w = true :=
      fun w hw => hall w (List.mem_cons_of_mem _ hw)
    by_cases hw : w = true
    · subst hw
      simp only [cmmDeleteLoop, if_pos rfl, if_true]
      exact ih de x hall'
    · have hw' : w = false := by revert hw; cases w <;> simp
      subst hw'
      have hex : e ≠ x := by
        intro he
        subst he
        exact absurd (hall false (List.mem_cons_self _ _)) (by simp)
      simp only [cmmDeleteLoop, Bool.false_eq_true, if_false]
      obtain ⟨ha, hb⟩ := ih (deleteEndpointLocked
        { de with isCallMeMaybeEP := merase de.isCallMeMaybeEP e } e) x hall'
      rw [ha, hb, deleteEndpoint_isCMM, deleteEndpoint_lookup]
      constructor
      · simp only []
        rw [mlookup_merase, if_neg hex]
      · rw [if_neg hex]

theorem cmmDeleteLoop_es_pairs_subset (snap : List (IPPort × Bool)) :
    ∀ (de : Endpoint) (p : IPPort × endpointState),
      p ∈ (cmmDeleteLoop de snap).endpointState → p ∈ de.endpointState := by
  induction snap with
  | nil => intro de p h; exact h
  | cons q rest ih =>
    obtain ⟨e, w⟩ := q
    intro de p h
    simp only [cmmDeleteLoop] at h
    by_cases hw : w = true
    · rw [if_pos hw] at h
      exact ih de p h
    · rw [if_neg hw] at h
      have h2 := ih _ p h
      rw [deleteEndpoint_es] at h2
      exact (mem_merase h2).1

/-! ## Lemmas about the full-probe loop -/

theorem sendPingsLoop_isCMM (nowM nowW : Time) (snap : List (IPPort × endpointState)) :
    ∀ de : Endpoint,
      (sendPingsLoop nowM nowW de snap).1.isCallMeMaybeEP = de.isCallMeMaybeEP := by
  induction snap with
  | nil => intro de; rfl
  | cons p rest ih =>
    obtain ⟨ep, st⟩ := p
    intro de
    by_cases hdel : shouldDeleteLocked nowW st = true
    · simp only [sendPingsLoop, hdel, if_true]
      rw [ih, deleteEndpoint_isCMM]
    · simp only [sendPingsLoop, hdel, Bool.false_eq_true, if_false]
      by_cases hskip : st.lastPing ≠ 0 ∧ nowM - st.lastPing < discoPingInterval
      · rw [if_pos hskip]
        exact ih de
      · rw [if_neg hskip]
        simp only []
        rw [ih]
        cases hlk : mlookup de.endpointState ep with
        | none => simp only [startPingLocked, hlk]
        | some st2 => simp only [startPingLocked, hlk]

theorem sendPingsLoop_es_none (nowM nowW : Time) (snap : List (IPPort × endpointState)) :
    ∀ (de : Endpoint) (x : IPPort), mlookup de.endpointState x = none →
      mlookup (sendPingsLoop nowM nowW de snap).1.endpointState x = none := by
  induction snap with
  | nil => intro de x h; exact h
  | cons p rest ih =>
    obtain ⟨ep, st⟩ := p
    intro de x h
    by_cases hdel : shouldDeleteLocked nowW st = true
    · simp only [sendPingsLoop, hdel, if_true]
      apply ih
      rw [deleteEndpoint_lookup]
      split <;> simp [h]
    · simp only [sendPingsLoop, hdel, Bool.false_eq_true, if_false]
      by_cases hskip : st.lastPing ≠ 0 ∧ nowM - st.lastPing < discoPingInterval
      · rw [if_pos hskip]
        exact ih de x h
      · rw [if_neg hskip]
        simp only []
        apply ih
        cases hlk : mlookup de.endpointState ep with
        | none => simp only [startPingLocked, hlk]; exact h
        | some st2 =>
          simp only [startPingLocked, hlk]
          by_cases hex : ep = x
          · subst hex
            rw [hlk] at h
            exact absurd h (by simp)
          · rw [mlookup_minsert, if_neg hex]
            exact h

theorem sendPingsLoop_pres_cmm (nowM nowW : Time) (snap : List (IPPort × endpointState)) :
    ∀ (de : Endpoint) (x : IPPort) (t : Time), t ≠ 0 →
      (∀ s, (x, s) ∈ snap → s.callMeMaybeTime = t) →
      ∀ st, mlookup de.endpointState x = some st → st.callMeMaybeTime = t →
      ∃ st', mlookup (sendPingsLoop nowM nowW de snap).1.endpointState x = some st' ∧
        st'.callMeMaybeTime = t := by
  induction snap with
  | nil => intro de x t _ _ st hst hcmm; exact ⟨st, hst, hcmm⟩
  | cons p rest ih =>
    obtain ⟨ep, s0⟩ := p
    intro de x t ht hall st hst hcmm
    have hall' : ∀ s, (x, s) ∈ rest → s.callMeMaybeTime = t :=
      fun s hs => hall s (List.mem_cons_of_mem _ hs)
    by_cases hdel : shouldDeleteLocked nowW s0 = true
    · have hex : ep ≠ x := by
        intro he
        subst he
        have hs0 : s0.callMeMaybeTime = t := hall s0 (List.mem_cons_self _ _)
        have : shouldDeleteLocked nowW s0 = false := by
          unfold shouldDeleteLocked
          rw [if_pos (hs0 ▸ ht)]
        rw [this] at hdel
        exact absurd hdel (by simp)
      simp only [sendPingsLoop, hdel, if_true]
      refine ih _ x t ht hall' st ?_ hcmm
      rw [deleteEndpoint_lookup, if_neg hex]
      exact hst
    · simp only [sendPingsLoop, hdel, Bool.false_eq_true, if_false]
      by_cases hskip : s0.lastPing ≠ 0 ∧ nowM - s0.lastPing < discoPingInterval
      · rw [if_pos hskip]
        exact ih de x t ht hall' st hst hcmm
      · rw [if_neg hskip]
        simp only []
        cases hlk : mlookup de.endpointState ep with
        | none =>
          simp only [startPingLocked, hlk]
          exact ih de x t ht hall' st hst hcmm
        | some st2 =>
          simp only [startPingLocked, hlk]
          by_cases hex : ep = x
          · subst hex
            have hst2 : st2 = st := by
              rw [hlk] at hst
              injection hst
            subst hst2
            refine ih _ ep t ht hall' { st2 with lastPing := nowM } ?_ hcmm
            rw [mlookup_minsert, if_pos rfl]
          · refine ih _ x t ht hall' st ?_ hcmm
            rw [mlookup_minsert, if_neg hex]
            exact hst

theorem sendPingsLoop_pinged (nowM nowW : Time) (snap : List (IPPort × endpointState)) :
    ∀ (de : Endpoint) (x : IPPort), x ∈ (sendPingsLoop nowM nowW de snap).2 →
      ∃ s, (x, s) ∈ snap := by
  induction snap with
  | nil => intro de x h; simp [sendPingsLoop] at h
  | cons p rest ih =>
    obtain ⟨ep, s0⟩ := p
    intro de x h
    by_cases hdel : shouldDeleteLocked nowW s0 = true
    · simp only [sendPingsLoop, hdel, if_true] at h
      obtain ⟨s, hs⟩ := ih _ x h
      exact ⟨s, List.mem_cons_of_mem _ hs⟩
    · simp only [sendPingsLoop, hdel, Bool.false_eq_true, if_false] at h
      by_cases hskip : s0.lastPing ≠ 0 ∧ nowM - s0.lastPing < discoPingInterval
      · rw [if_pos hskip] at h
        obtain ⟨s, hs⟩ := ih _ x h
        exact ⟨s, List.mem_cons_of_mem _ hs⟩
      · rw [if_neg hskip] at h
        simp only [] at h
        cases hlk : mlookup de.endpointState ep with
        | none =>
          simp only [startPingLocked, hlk] at h
          obtain ⟨s, hs⟩ := ih _ x h
          exact ⟨s, List.mem_cons_of_mem _ hs⟩
        | some st2 =>
          simp only [startPingLocked, hlk] at h
          rcases List.mem_cons.mp h with h1 | h1
          · exact ⟨s0, by rw [h1]; exact List.mem_cons_self _ _⟩
          · obtain ⟨s, hs⟩ := ih _ x h1
            exact ⟨s, List.mem_cons_of_mem _ hs⟩

theorem sendPingsLocked_isCMM (de : Endpoint) (nowM nowW : Time) (b : Bool) :
    (sendPingsLocked de nowM nowW b).1.isCallMeMaybeEP = de.isCallMeMaybeEP := by
  simp only [sendPingsLocked]
  rw [sendPingsLoop_isCMM]

theorem sendPingsLocked_es_none (de : Endpoint) (nowM nowW : Time) (b : Bool) (x : IPPort)
    (h : mlookup de.endpointState x = none) :
    mlookup (sendPingsLocked de nowM nowW b).1.endpointState x = none := by
  simp only [sendPingsLocked]
  exact sendPingsLoop_es_none nowM nowW _ _ x h

theorem sendPingsLocked_pres_cmm (de : Endpoint) (nowM nowW : Time) (b : Bool) (x : IPPort)
    (t : Time) (ht : t ≠ 0)
    (hall : ∀ s, (x, s) ∈ de.endpointState → s.callMeMaybeTime = t)
    (st : endpointState) (hst : mlookup de.endpointState x = some st)
    (hcmm : st.callMeMaybeTime = t) :
    ∃ st', mlookup (sendPingsLocked de nowM nowW b).1.endpointState x = some st' ∧
      st'.callMeMaybeTime = t := by
  simp only [sendPingsLocked]
  exact sendPingsLoop_pres_cmm nowM nowW _ _ x t ht hall st hst hcmm

theorem sendPingsLocked_pinged (de : Endpoint) (nowM nowW : Time) (b : Bool) (x : IPPort)
    (h : x ∈ (sendPingsLocked de nowM nowW b).2.1) : ∃ s, (x, s) ∈ de.endpointState := by
  simp only [sendPingsLocked] at h
  exact sendPingsLoop_pinged nowM nowW _ _ x h

def deC4 : Endpoint :=
  { discoKey := 7
    isCallMeMaybeEP := [(ipA, true)]
    endpointState := [(ipA, { index := 0, callMeMaybeTime := 5 })] }

/-- C4 counterexample.  The claim says a prior call-me-maybe address missing
from the new message keeps its path state iff it appears in the advertised
(network-map) list.  Here `ipA` was advertised at list position 0 (its index
is 0, not the deleted sentinel) and was in the previous call-me-maybe set,
yet after a call-me-maybe advertising only `ipB` its path state is gone: the
source deletes it unconditionally. -/
theorem claim_C4_counterexample :
    mlookup deC4.endpointState ipA = some { index := 0, callMeMaybeTime := 5 } ∧
    ¬ ((0 : Int) = indexSentinelDeleted) ∧
    mlookup (handleCallMeMaybe deC4 [ipB] 10 10).1.endpointState ipA = none := by
  refine ⟨by decide, by decide, by decide⟩

/-- C4 amended.  After handling a call-me-maybe advertising the set `S` (with
distinct-keyed maps — a Go map guarantee — and a non-zero wall clock): every
non-link-local address of `S` is in `isCallMeMaybeEP` and has a path state
with `callMeMaybeTime = now`; every address that was in `isCallMeMaybeEP`
from an earlier message but is not in `S` is removed from the set and its
path state is deleted unconditionally, even when it appears in the advertised
network-map list. -/
theorem claim_C4_amended (de : Endpoint) (S : List IPPort) (nowW nowM : Time)
    (ep epOld : IPPort)
    (hndC : KeysNodup de.isCallMeMaybeEP) (hndE : KeysNodup de.endpointState)
    (hw : 0 < nowW)
    (hin : ep ∈ S) (hll : (ep.ip.is6 && ep.ip.isLinkLocalUnicast) = false)
    (hold : (mlookup de.isCallMeMaybeEP epOld).isSome = true) (hnotin : epOld ∉ S) :
    mlookup (handleCallMeMaybe de S nowW nowM).1.isCallMeMaybeEP ep = some true ∧
    (mlookup (handleCallMeMaybe de S nowW nowM).1.endpointState ep).map
      endpointState.callMeMaybeTime = some nowW ∧
    mlookup (handleCallMeMaybe de S nowW nowM).1.isCallMeMaybeEP epOld = none ∧
    mlookup (handleCallMeMaybe de S nowW nowM).1.endpointState epOld = none := by
  set d1 : Endpoint :=
    { de with isCallMeMaybeEP := mapVals (fun _ => false) de.isCallMeMaybeEP } with hd1
  set d2 : Endpoint := cmmLoop nowW d1 S with hd2
  set d3 : Endpoint := cmmDeleteLoop d2 d2.isCallMeMaybeEP with hd3
  set d4 : Endpoint :=
    { d3 with endpointState := mapVals (fun st => { st with lastPing := 0 }) d3.endpointState }
    with hd4
  have hres1 : (handleCallMeMaybe de S nowW nowM).1 = (sendPingsLocked d4 nowM nowW false).1 := rfl
  have hw' : nowW ≠ 0 := Nat.pos_iff_ne_zero.mp hw
  -- facts about ep after the absorb loop
  obtain ⟨h2c, st2, h2e, h2cmm⟩ := cmmLoop_establish nowW S d1 ep hin hll
  rw [← hd2] at h2c h2e
  have hnd1 : KeysNodup d1.isCallMeMaybeEP := keysNodup_mapVals hndC
  have hnd2c : KeysNodup d2.isCallMeMaybeEP := cmmLoop_isCMM_keysNodup nowW S d1 hnd1
  have hnd2e : KeysNodup d2.endpointState := cmmLoop_es_keysNodup nowW S d1 hndE
  have hall2 : ∀ w, (ep, w) ∈ d2.isCallMeMaybeEP → w = true := by
    intro w hwmem
    have hlkw := mlookup_eq_some_of_mem_nodup hnd2c hwmem
    rw [h2c] at hlkw
    injection hlkw with hv
    exact hv.symm
  obtain ⟨h3c, h3e⟩ := cmmDeleteLoop_preserved d2.isCallMeMaybeEP d2 ep hall2
  have h4e : mlookup d4.endpointState ep = some { st2 with lastPing := 0 } := by
    show mlookup (mapVals (fun st => { st with lastPing := 0 }) d3.endpointState) ep = _
    rw [mlookup_mapVals, h3e, h2e]
    rfl
  have hall4 : ∀ s, (ep, s) ∈ d4.endpointState → s.callMeMaybeTime = nowW := by
    intro s hs
    obtain ⟨v, hv, hsv⟩ := mem_mapVals hs
    have hv2 := cmmDeleteLoop_es_pairs_subset d2.isCallMeMaybeEP d2 (ep, v) hv
    have hlkv := mlookup_eq_some_of_mem_nodup hnd2e hv2
    rw [h2e] at hlkv
    have hv3 : st2 = v := by injection hlkv
    subst hv3
    have hsv2 : s = { st2 with lastPing := 0 } := hsv
    rw [hsv2]
    exact h2cmm
  -- facts about epOld
  have h1old : mlookup d1.isCallMeMaybeEP epOld = some false := by
    show mlookup (mapVals (fun _ => false) de.isCallMeMaybeEP) epOld = some false
    rw [mlookup_mapVals]
    cases hm : mlookup de.isCallMeMaybeEP epOld with
    | none => rw [hm] at hold; exact absurd hold (by simp)
    | some b => rfl
  have huntold := cmmLoop_untouched nowW S d1 epOld
    (fun e he _ heq => hnotin (heq ▸ he))
  have h2old : mlookup d2.isCallMeMaybeEP epOld = some false := by
    rw [← hd2] at huntold
    rw [huntold.1, h1old]
  obtain ⟨h3co, h3eo⟩ :=
    cmmDeleteLoop_erased d2.isCallMeMaybeEP d2 epOld (mem_of_mlookup_eq_some h2old)
  have h4eo : mlookup d4.endpointState epOld = none := by
    show mlookup (mapVals (fun st => { st with lastPing := 0 }) d3.endpointState) epOld = none
    rw [mlookup_mapVals, h3eo]
    rfl
  refine ⟨?_, ?_, ?_, ?_⟩
  · rw [hres1, sendPingsLocked_isCMM]
    show mlookup d3.isCallMeMaybeEP ep = some true
    rw [h3c, h2c]
  · obtain ⟨st', hst', hcmm'⟩ := sendPingsLocked_pres_cmm d4 nowM nowW false ep nowW hw'
      hall4 { st2 with lastPing := 0 } h4e h2cmm
    rw [hres1, hst']
    simp [hcmm']
  · rw [hres1, sendPingsLocked_isCMM]
    show mlookup d3.isCallMeMaybeEP epOld = none
    exact h3co
  · rw [hres1]
    exact sendPingsLocked_es_none d4 nowM nowW false epOld h4eo

/-- C4 amended witness: the concrete record `deC4` (call-me-maybe set `{ipA}`,
path states for `ipA`) handling a call-me-maybe advertising `{ipB}`. -/
theorem claim_C4_amended_witness :
    mlookup (handleCallMeMaybe deC4 [ipB] 10 10).1.isCallMeMaybeEP ipB = some true ∧
    (mlookup (handleCallMeMaybe deC4 [ipB] 10 10).1.endpointState ipB).map
      endpointState.callMeMaybeTime = some 10 ∧
    mlookup (handleCallMeMaybe deC4 [ipB] 10 10).1.isCallMeMaybeEP ipA = none ∧
    mlookup (handleCallMeMaybe deC4 [ipB] 10 10).1.endpointState ipA = none :=
  claim_C4_amended deC4 [ipB] 10 10 ipB ipA (by decide) (by decide) (by decide)
    (by decide) (by decide) (by decide) (by decide)

/-- C9.  An IPv6 link-local unicast address advertised in a call-me-maybe is
silently skipped: it is not in `isCallMeMaybeEP` afterwards, no path state is
created for it (none exists afterwards if none existed before), and it is not
among the addresses pinged by the immediate probe. -/
theorem claim_C9 (de : Endpoint) (S : List IPPort) (nowW nowM : Time) (ep : IPPort)
    (hin : ep ∈ S) (h6 : ep.ip.is6 = true) (hLL : ep.ip.isLinkLocalUnicast = true)
    (hnew : mlookup de.endpointState ep = none) :
    mlookup (handleCallMeMaybe de S nowW nowM).1.isCallMeMaybeEP ep = none ∧
    mlookup (handleCallMeMaybe de S nowW nowM).1.endpointState ep = none ∧
    ep ∉ (handleCallMeMaybe de S nowW nowM).2 := by
  set d1 : Endpoint :=
    { de with isCallMeMaybeEP := mapVals (fun _ => false) de.isCallMeMaybeEP } with hd1
  set d2 : Endpoint := cmmLoop nowW d1 S with hd2
  set d3 : Endpoint := cmmDeleteLoop d2 d2.isCallMeMaybeEP with hd3
  set d4 : Endpoint :=
    { d3 with endpointState := mapVals (fun st => { st with lastPing := 0 }) d3.endpointState }
    with hd4
  have hres1 : (handleCallMeMaybe de S nowW nowM).1 = (sendPingsLocked d4 nowM nowW false).1 := rfl
  have hres2 : (handleCallMeMaybe de S nowW nowM).2 = (sendPingsLocked d4 nowM nowW false).2.1 :=
    rfl
  have hunt := cmmLoop_untouched nowW S d1 ep (by
    intro e he hllf heq
    subst heq
    rw [h6, hLL] at hllf
    simp at hllf)
  rw [← hd2] at hunt
  have h2e : mlookup d2.endpointState ep = none := by
    rw [hunt.2]
    exact hnew
  have h3eo : mlookup d3.endpointState ep = none := cmmDeleteLoop_es_none _ d2 ep h2e
  have h4eo : mlookup d4.endpointState ep = none := by
    show mlookup (mapVals (fun st => { st with lastPing := 0 }) d3.endpointState) ep = none
    rw [mlookup_mapVals, h3eo]
    rfl
  have h3c : mlookup d3.isCallMeMaybeEP ep = none := by
    cases hm : mlookup de.isCallMeMaybeEP ep with
    | none =>
      apply cmmDeleteLoop_cmm_none
      rw [hunt.1]
      show mlookup (mapVals (fun _ => false) de.isCallMeMaybeEP) ep = none
      rw [mlookup_mapVals, hm]
      rfl
    | some b =>
      have h2c : mlookup d2.isCallMeMaybeEP ep = some false := by
        rw [hunt.1]
        show mlookup (mapVals (fun _ => false) de.isCallMeMaybeEP) ep = some false
        rw [mlookup_mapVals, hm]
        rfl
      exact (cmmDeleteLoop_erased d2.isCallMeMaybeEP d2 ep (mem_of_mlookup_eq_some h2c)).1
  refine ⟨?_, ?_, ?_⟩
  · rw [hres1, sendPingsLocked_isCMM]
    exact h3c
  · rw [hres1]
    exact sendPingsLocked_es_none d4 nowM nowW false ep h4eo
  · rw [hres2]
    intro hp
    obtain ⟨s, hs⟩ := sendPingsLocked_pinged d4 nowM nowW false ep hp
    exact not_mem_of_mlookup_eq_none h4eo s hs

def llAddr : IPPort := ⟨IP.v6 0xfe800000000000000000000000000001, 9⟩

/-- C9 witness: a call-me-maybe advertising only the link-local `fe80::1`
against an empty peer record leaves no call-me-maybe mark, no path state, and
pings nothing. -/
theorem claim_C9_witness :
    mlookup (handleCallMeMaybe { discoKey := 7 } [llAddr] 10 10).1.isCallMeMaybeEP llAddr = none ∧
    mlookup (handleCallMeMaybe { discoKey := 7 } [llAddr] 10 10).1.endpointState llAddr = none ∧
    llAddr ∉ (handleCallMeMaybe { discoKey := 7 } [llAddr] 10 10).2 :=
  claim_C9 { discoKey := 7 } [llAddr] 10 10 llAddr (by decide) (by decide) (by decide)
    (by decide)

end Magicsock
